import Mathlib

/-!
Verification development for the `ai-metadata` index generator and the
description synthesizer of this repository.

The two scripts are embedded shallowly:

* Pure string manipulation (`split`, `startsWith`, `slice`, `path.join`,
  `path.dirname`, `path.extname`, `path.basename`, regular-expression
  scanning, `Array.prototype.sort`) is implemented over `List Char` /
  `String` as structurally recursive Lean functions mirroring the
  JavaScript semantics the scripts rely on.  Strings are modelled as
  sequences of Unicode scalar values; the scripts only ever manipulate
  ASCII path and specifier text, where this coincides with JavaScript's
  UTF-16 code-unit view.
* JavaScript objects (insertion ordered, unique string keys) are modelled
  as association lists (`JObj`) with an in-place-overwriting insert.
* External effectful collaborators (the TypeScript parser, `fs.access`
  existence probes, file reads, `git ls-files`, the content hash) are
  threaded in as explicit function-valued fields of an `Env` record, so a
  run of the pipeline is a pure function of the environment, the previous
  snapshot and the generation timestamp.
-/

namespace MetaSync

/-! ## Basic list/string utilities (JavaScript built-in semantics) -/

/-- Does the first list start with the second one? -/
def listStartsWith : List Char → List Char → Bool
  | _, [] => true
  | [], _ :: _ => false
  | a :: as, b :: bs => a == b && listStartsWith as bs

/-- `s.startsWith(pre)` of JavaScript. -/
def strStartsWith (s p : String) : Bool := listStartsWith s.data p.data

/-- `s.endsWith(suf)` of JavaScript. -/
def strEndsWith (s suf : String) : Bool :=
  listStartsWith s.data.reverse suf.data.reverse

/-- `s.slice(n)` of JavaScript (drop the first `n` characters). -/
def strDrop (s : String) (n : Nat) : String := String.mk (s.data.drop n)

/-- `s.slice(0, -n)` of JavaScript (drop the last `n` characters). -/
def strDropRight (s : String) (n : Nat) : String :=
  String.mk (s.data.take (s.data.length - n))

/-- Character count of a string (the scripts only handle ASCII text, where
this is JavaScript's `length`). -/
def strLen (s : String) : Nat := s.data.length

/-- `hay.includes(needle)` on character lists. -/
def containsSub (needle : List Char) : List Char → Bool
  | [] => listStartsWith [] needle
  | c :: t => listStartsWith (c :: t) needle || containsSub needle t

/-- `s.includes(sub)` of JavaScript. -/
def strContains (s sub : String) : Bool := containsSub sub.data s.data

/-- `s.toLowerCase()` (ASCII case folding; the tag vocabulary and paths the
scripts compare are ASCII). -/
def strToLower (s : String) : String := String.mk (s.data.map Char.toLower)

/-- `s.split(sep)` for a one-character separator, JavaScript semantics:
always at least one (possibly empty) field. -/
def splitOnChar (sep : Char) : List Char → List (List Char)
  | [] => [[]]
  | c :: rest =>
    let r := splitOnChar sep rest
    if c == sep then [] :: r
    else
      match r with
      | [] => [[c]]
      | g :: gs => (c :: g) :: gs

/-- `s.split('/')` as a list of strings. -/
def splitSlash (s : String) : List String :=
  (splitOnChar '/' s.data).map String.mk

/-- Join path segments with `'/'`. -/
def joinSegs : List String → String
  | [] => ""
  | [s] => s
  | s :: t => s ++ "/" ++ joinSegs t

/-- Lexicographic comparison of character lists by scalar value, the order
`Array.prototype.sort()` uses on (ASCII) strings. -/
def listLe : List Char → List Char → Bool
  | [], _ => true
  | _ :: _, [] => false
  | a :: as, b :: bs =>
    if a.toNat < b.toNat then true
    else if b.toNat < a.toNat then false
    else listLe as bs

/-- String comparison used to model `Array.prototype.sort()`. -/
def strLe (a b : String) : Bool := listLe a.data b.data

/-- Insert into a `strLe`-sorted list. -/
def insortInsert (x : String) : List String → List String
  | [] => [x]
  | y :: t => if strLe x y then x :: y :: t else y :: insortInsert x t

/-- Sort a string list (models the in-place `list.sort()` of the scripts). -/
def insort : List String → List String
  | [] => []
  | x :: t => insortInsert x (insort t)

/-- Is the list sorted for `strLe`? -/
def sortedB : List String → Bool
  | [] => true
  | [_] => true
  | x :: y :: t => strLe x y && sortedB (y :: t)

/-- First-occurrence deduplication, the order `new Set(list)` keeps. -/
def dedupFirst (l : List String) : List String :=
  l.foldl (fun acc v => if acc.contains v then acc else acc ++ [v]) []

/-! ## JavaScript objects as insertion-ordered association lists -/

/-- A JavaScript object with values in `α`: insertion-ordered keyed entries. -/
abbrev JObj (α : Type) := List (String × α)

/-- `o[k]` (the first entry with key `k`; keys are unique by construction). -/
def objGet {α : Type} (o : JObj α) (k : String) : Option α :=
  (o.find? (fun kv => kv.1 == k)).map (fun kv => kv.2)

/-- `o[k] = v`: overwrite in place when the key exists, append otherwise —
exactly the key-order behaviour of JavaScript object assignment. -/
def objInsert {α : Type} (o : JObj α) (k : String) (v : α) : JObj α :=
  if (o.find? (fun kv => kv.1 == k)).isSome then
    o.map (fun kv => if kv.1 == k then (k, v) else kv)
  else o ++ [(k, v)]

/-! ## Path functions (`node:path`, POSIX flavour, as the scripts use them) -/

/-- One step of path-segment normalisation (a `..`-collapsing stack, kept
reversed: head is the innermost segment). -/
def normStep (acc : List String) (seg : String) : List String :=
  if seg == "" || seg == "." then acc
  else if seg == ".." then
    match acc with
    | [] => [".."]
    | top :: rest => if top == ".." then ".." :: top :: rest else rest
  else seg :: acc

/-- Normalise a relative POSIX path the way `path.join`/`path.resolve` do:
drop empty and `.` segments, collapse `..` against preceding segments.  The
scripts round-trip candidate paths through `path.resolve(root, p)` and
`path.relative(root, ·)`, which on repo-relative inputs is exactly this
normalisation. -/
def normPath (s : String) : String :=
  let segs := ((splitSlash s).foldl normStep []).reverse
  if segs.isEmpty then "." else joinSegs segs

/-- `path.join(a, b)` (concatenate, then normalise). -/
def joinPath (a b : String) : String := normPath (a ++ "/" ++ b)

/-- `path.dirname` for ordinary relative file paths (no trailing slash, not
root-absolute — the shapes `git ls-files` emits). -/
def dirname (s : String) : String :=
  match (splitSlash s).dropLast with
  | [] => "."
  | segs => joinSegs segs

/-- `path.basename` for ordinary relative file paths. -/
def basename (s : String) : String := ((splitSlash s).getLast?).getD s

/-- Index of the last occurrence of a character. -/
def lastIdxOf (c : Char) : List Char → Option Nat
  | [] => none
  | x :: t =>
    match lastIdxOf c t with
    | some i => some (i + 1)
    | none => if x == c then some 0 else none

/-- `path.extname`: the suffix of the basename from its last dot, empty when
there is no dot or the only dot starts the basename. -/
def extname (s : String) : String :=
  let b := basename s
  match lastIdxOf '.' b.data with
  | some i => if i == 0 then "" else String.mk (b.data.drop i)
  | none => ""

/-- Does the path carry a file extension (`Boolean(path.extname(p))`)? -/
def hasExtension (s : String) : Bool := extname s != ""

/-- `filePath.replaceAll('\\', '/')` of both scripts. -/
def normalizeSlashes (s : String) : String :=
  String.mk (s.data.map (fun c => if c == '\\' then '/' else c))

/-! ## JSON values (what `JSON.parse` / the tsconfig reader navigate) -/

/-- A JSON value; `obj` keeps the insertion-ordered fields. -/
inductive Json : Type where
  | null : Json
  | bool (b : Bool) : Json
  | num (n : Int) : Json
  | str (s : String) : Json
  | arr (items : List Json) : Json
  | obj (fields : List (String × Json)) : Json

/-- Optional-chaining field access (`v?.k`). -/
def jLookup (j : Json) (k : String) : Option Json :=
  match j with
  | Json.obj fields => (fields.find? (fun kv => kv.1 == k)).map (fun kv => kv.2)
  | _ => none

/-! ## Alias resolver (`readTsconfigPaths`, `applySimpleAlias`) -/

/-- One `compilerOptions.paths` rule: a pattern bound to its raw candidate
target list (targets stay raw JSON values; `applySimpleAlias` checks that the
first one is a string, as the script does with `typeof`). -/
structure AliasRule : Type where
  pattern : String
  targets : List Json

/-- `readTsconfigPaths`, with the two external steps made explicit:
`configText` is what `ts.sys.readFile` returned (`none`: file missing or
unreadable) and `parseCfg` is `ts.parseConfigFileTextToJson`'s `config`
result (`none`: the parser reported an error, so `parsed?.config` is
undefined).  The script wraps everything in `try … catch { return [] }` and
each early return yields `[]`, so the modelled function is total — loading
the configuration can never fail. -/
def readTsconfigPaths (configText : Option String) (parseCfg : String → Option Json) :
    List AliasRule :=
  match configText with
  | none => []
  | some txt =>
    if txt == "" then []
    else
      match parseCfg txt with
      | none => []
      | some cfg =>
        match (jLookup cfg "compilerOptions").bind (fun co => jLookup co "paths") with
        | some (Json.obj fields) =>
          fields.filterMap (fun kv =>
            match kv.2 with
            | Json.arr ts => some ⟨kv.1, ts⟩
            | _ => none)
        | some (Json.arr items) =>
          -- `Object.entries` on an array yields index-keyed entries.
          (items.enum).filterMap (fun kv =>
            match kv.2 with
            | Json.arr ts => some ⟨Nat.repr kv.1, ts⟩
            | _ => none)
        | _ => []

/-- `applySimpleAlias(spec, aliasPaths)`: walk the rules in order; a rule
whose pattern is not wildcard-suffixed, whose prefix does not match, whose
first target is not a string, or whose first (string) target is neither the
passthrough `'./*'` nor wildcard-suffixed, is skipped and the walk goes on. -/
def applySimpleAlias (spec : String) : List AliasRule → Option String
  | [] => none
  | r :: rest =>
    if strEndsWith r.pattern "/*" then
      let pfx := strDropRight r.pattern 2
      if strStartsWith spec (pfx ++ "/") then
        match r.targets.head? with
        | some (Json.str t) =>
          let suffix := strDrop spec (strLen pfx + 1)
          if t == "./*" then some suffix
          else if strEndsWith t "/*" then some (strDropRight t 2 ++ "/" ++ suffix)
          else applySimpleAlias spec rest
        | _ => applySimpleAlias spec rest
      else applySimpleAlias spec rest
    else applySimpleAlias spec rest

/-- What a single rule alone would produce for `spec`, reading only the
rule's FIRST candidate target: the captured suffix for a passthrough
target, `targetPrefix ++ '/' ++ suffix` for a wildcard target, nothing
otherwise. -/
def ruleResult (spec : String) (r : AliasRule) : Option String :=
  if strEndsWith r.pattern "/*" then
    let pfx := strDropRight r.pattern 2
    if strStartsWith spec (pfx ++ "/") then
      match r.targets.head? with
      | some (Json.str t) =>
        let suffix := strDrop spec (strLen pfx + 1)
        if t == "./*" then some suffix
        else if strEndsWith t "/*" then some (strDropRight t 2 ++ "/" ++ suffix)
        else none
      | _ => none
    else none
  else none

/-! ## Import resolver (`externalPackageName`, `resolveLocalImport`) -/

/-- `externalPackageName(spec)`: reduce an external specifier to its package
identity. -/
def externalPackageName (spec : String) : String :=
  if strStartsWith spec "@" then
    let parts := splitSlash spec
    if 2 ≤ parts.length then parts.headD "" ++ "/" ++ (parts.drop 1).headD ""
    else spec
  else (splitSlash spec).headD spec

/-- The probing extension order `RESOLVE_EXTENSIONS`. -/
def RESOLVE_EXTENSIONS : List String :=
  [".ts", ".tsx", ".js", ".jsx", ".mjs", ".cjs", ".json", ".css"]

/-- The source-kind filter `SOURCE_EXTENSIONS`. -/
def SOURCE_EXTENSIONS : List String := [".ts", ".tsx", ".js", ".jsx", ".mjs", ".cjs"]

/-- Lines 114–125 of the generator: the LOCAL candidate (repo-relative) a raw
specifier produces, before any probing — `none` when the specifier is not
local-shaped.  JavaScript truthiness makes an empty alias result fall
through (`if (aliasRel)`), hence the explicit `""` check. -/
def candidateOf (aliasR : List AliasRule) (importerRel spec : String) : Option String :=
  if strStartsWith spec "./" || strStartsWith spec "../" then
    some (joinPath (dirname importerRel) spec)
  else if strStartsWith spec "/" then some (strDrop spec 1)
  else
    match applySimpleAlias spec aliasR with
    | some r => if r == "" then none else some r
    | none => none

/-- `resolveLocalImport`: build the candidate, then probe the filesystem
(`fsEx`, modelling `pathExists` over repo-relative paths) for the first
existing try-path.  With an extension the candidate alone is probed; without
one, each recognised extension appended directly, then each appended under
`/index`. -/
def resolveLocalImport (fsEx : String → Bool) (importerRel spec : String)
    (aliasR : List AliasRule) : Option String :=
  match candidateOf aliasR importerRel spec with
  | none => none
  | some candidateRel =>
    let cand := normPath candidateRel
    let tryPaths :=
      if hasExtension cand then [cand]
      else
        RESOLVE_EXTENSIONS.map (fun ext => cand ++ ext)
          ++ RESOLVE_EXTENSIONS.map (fun ext => joinPath cand ("index" ++ ext))
    tryPaths.find? fsEx

/-- Is the specifier local-shaped (relative, root-absolute, or rewritten to a
truthy path by an alias rule)?  Lines 334 and 370 of the generator. -/
def isLocalImportShaped (aliasR : List AliasRule) (spec : String) : Bool :=
  strStartsWith spec "./" || strStartsWith spec "../" || strStartsWith spec "/" ||
    (match applySimpleAlias spec aliasR with
     | some r => !(r == "")
     | none => false)

/-- The classification of one dependency edge. -/
inductive Dep : Type where
  | localR (p : String) : Dep
  | localU (s : String) : Dep
  | externalR (pkg : String) : Dep

/-- Lines 363–375 of the generator: classify one raw specifier of one file. -/
def classifySpec (fsEx : String → Bool) (aliasR : List AliasRule)
    (importerRel spec : String) : Dep :=
  match resolveLocalImport fsEx importerRel spec aliasR with
  | some resolved => Dep.localR resolved
  | none =>
    if isLocalImportShaped aliasR spec then Dep.localU spec
    else Dep.externalR (externalPackageName spec)

/-! ## Semantic tagger (`featureFromPath`, `inferRoutesFromPath`,
`extractSemanticFromText`) -/

/-- `featureFromPath` of the index generator (the Semantic Tagger's
classification; note the three entry filenames mapping to `app/entry`). -/
def featureFromPath (filePath : String) : String :=
  let p := normalizeSlashes filePath
  if strStartsWith p "pages/" then "route/page"
  else if strStartsWith p "components/" then "ui/component"
  else if strStartsWith p "utils/" then "utility"
  else if strStartsWith p "worker/" then "worker/backend"
  else if p == "App.tsx" || p == "AppShell.tsx" || p == "index.tsx" then "app/entry"
  else "module"

/-- `featureFromPath` of the description synthesizer (`describe-files.mjs`;
two entry filenames, mapping to `app/shell`). -/
def featureFromPathDesc (filePath : String) : String :=
  let p := normalizeSlashes filePath
  if strStartsWith p "pages/" then "route/page"
  else if strStartsWith p "components/" then "ui/component"
  else if strStartsWith p "utils/" then "utility"
  else if strStartsWith p "worker/" then "worker/backend"
  else if p == "App.tsx" || p == "AppShell.tsx" then "app/shell"
  else "module"

/-- The script-extension stripper `/\.(tsx|ts|jsx|js|mjs|cjs)$/`. -/
def stripJsExt (s : String) : String :=
  if strEndsWith s ".tsx" then strDropRight s 4
  else if strEndsWith s ".ts" then strDropRight s 3
  else if strEndsWith s ".jsx" then strDropRight s 4
  else if strEndsWith s ".js" then strDropRight s 3
  else if strEndsWith s ".mjs" then strDropRight s 4
  else if strEndsWith s ".cjs" then strDropRight s 4
  else s

/-- `inferRoutesFromPath`. -/
def inferRoutesFromPath (filePath : String) : List String :=
  let p := normalizeSlashes filePath
  if strStartsWith p "pages/" then
    let base := stripJsExt (basename p)
    if base == "index" then ["/"] else ["/" ++ base]
  else []

/-- The fixed tag vocabulary `TAG_KEYWORDS`. -/
def TAG_KEYWORDS : List String :=
  ["canvas", "artboard", "flow", "reactflow", "xyflow", "storyboard", "publish",
   "profile", "subscription", "settings", "http", "auth", "token", "kling",
   "yunwu", "gemini", "grs", "qrcode", "zip", "worker"]

/-- `Set.add` keeping first-insertion order. -/
def addUniq (acc : List String) (v : String) : List String :=
  if acc.contains v then acc else acc ++ [v]

/-! ### The three literal-extraction regular expressions as scanners

`text.matchAll(re)` is modelled by trying a match at every position left to
right and, on a match, resuming right after it.  The three patterns of the
script are deterministic except for one backtracking point (the `/api/`
character class contains `'`, so an apostrophe-quoted literal can only close
at the last reachable quote), which `bestEnd` reproduces. -/

/-- The quote characters `'`, `"`, `` ` `` of the three patterns. -/
def quoteChars : List Char := [Char.ofNat 39, Char.ofNat 34, Char.ofNat 96]

/-- JavaScript `\s` restricted to the code points the scripts meet. -/
def isJsSpace (c : Char) : Bool :=
  c.toNat == 32 || c.toNat == 9 || c.toNat == 10 || c.toNat == 11 ||
    c.toNat == 12 || c.toNat == 13 || c.toNat == 160

/-- JavaScript `\w`/`\b` word characters. -/
def isWordChar (c : Char) : Bool := c.isAlpha || c.isDigit || c == '_'

/-- The class `[^'"`\s]` of the URL alternative. -/
def urlChar (c : Char) : Bool := !(quoteChars.contains c) && !(isJsSpace c)

/-- The character class of the `/api/` alternative: ASCII letters, digits,
and `. _ ~ ! $ & ' ( ) * + , ; = : @` plus the slash and the hyphen. -/
def apiChar (c : Char) : Bool :=
  c.isAlpha || c.isDigit ||
    ([46, 95, 126, 33, 36, 38, 39, 40, 41, 42, 43, 44, 59, 61, 58, 64, 47, 45] :
      List Nat).contains c.toNat

/-- The class `[A-Z0-9_]` of the environment-variable pattern. -/
def envChar (c : Char) : Bool :=
  (65 ≤ c.toNat && c.toNat ≤ 90) || c.isDigit || c == '_'

/-- The largest `k` with `1 ≤ k ≤ n` such that the character right after the
first `k` characters of `after` is the closing quote — the backtracking of
the greedy `[...]+` against the required `\1`. -/
def bestEnd (after : List Char) (q : Char) : Nat → Option Nat
  | 0 => none
  | k + 1 =>
    if (after.drop (k + 1)).head? == some q then some (k + 1)
    else bestEnd after q k

def httpsHead : List Char := "https://".data

def httpHead : List Char := "http://".data

def apiHead : List Char := "/api/".data

/-- Group 2 of the URL alternative `(?:https?:\/\/)[^'"`\s]+` followed by the
closing quote `q`, matched against `rest` (the text right after the opening
quote). -/
def tryHttpBody (rest : List Char) (q : Char) : Option (List Char) :=
  let toHead :=
    if listStartsWith rest httpsHead then some httpsHead
    else if listStartsWith rest httpHead then some httpHead
    else none
  match toHead with
  | none => none
  | some h =>
    let after := rest.drop h.length
    let run := after.takeWhile urlChar
    if run.isEmpty then none
    else
      match after.drop run.length with
      | c :: _ => if c == q then some (h ++ run) else none
      | [] => none

/-- Group 2 of the `/api/` alternative followed by the closing quote. -/
def tryApiBody (rest : List Char) (q : Char) : Option (List Char) :=
  if listStartsWith rest apiHead then
    let after := rest.drop apiHead.length
    let run := after.takeWhile apiChar
    match bestEnd after q run.length with
    | some k => some (apiHead ++ after.take k)
    | none => none
  else none

/-- One attempted match of the endpoint pattern at the head of `cs`:
`(value of group 2, total match length)`. -/
def tryApiAt (_ : Option Char) (cs : List Char) : Option (String × Nat) :=
  match cs with
  | [] => none
  | q :: rest =>
    if quoteChars.contains q then
      match tryHttpBody rest q with
      | some v => some (String.mk v, v.length + 2)
      | none =>
        match tryApiBody rest q with
        | some v => some (String.mk v, v.length + 2)
        | none => none
    else none

def storageHead : List Char := "localStorage.".data

def getItemWord : List Char := "getItem".data

def setItemWord : List Char := "setItem".data

def removeItemWord : List Char := "removeItem".data

/-- One attempted match of the storage-key pattern
`localStorage\.(?:getItem|setItem|removeItem)\(\s*(['"`])([^'"`]+)\1`. -/
def tryStorageAt (_ : Option Char) (cs : List Char) : Option (String × Nat) :=
  if listStartsWith cs storageHead then
    let r1 := cs.drop storageHead.length
    let methodW :=
      if listStartsWith r1 getItemWord then some getItemWord
      else if listStartsWith r1 setItemWord then some setItemWord
      else if listStartsWith r1 removeItemWord then some removeItemWord
      else none
    match methodW with
    | none => none
    | some mw =>
      match r1.drop mw.length with
      | lp :: r3 =>
        if lp == '(' then
          let ws := r3.takeWhile isJsSpace
          match r3.drop ws.length with
          | q :: r4 =>
            if quoteChars.contains q then
              let run := r4.takeWhile (fun c => !(quoteChars.contains c))
              if run.isEmpty then none
              else
                match r4.drop run.length with
                | c :: _ =>
                  if c == q then
                    some (String.mk run,
                      storageHead.length + mw.length + 1 + ws.length + 1 + run.length + 1)
                  else none
                | [] => none
            else none
          | [] => none
        else none
      | [] => none
  else none

def processEnvHead : List Char := "process.env.".data

def importMetaEnvHead : List Char := "import.meta.env.".data

/-- One attempted match of the environment-variable pattern
`\b(?:process\.env|import\.meta\.env)\.([A-Z0-9_]+)`; `prev` carries the
character before the position, for the word boundary. -/
def tryEnvAt (prev : Option Char) (cs : List Char) : Option (String × Nat) :=
  let boundary := match prev with | none => true | some c => !(isWordChar c)
  if boundary then
    let toHead :=
      if listStartsWith cs processEnvHead then some processEnvHead
      else if listStartsWith cs importMetaEnvHead then some importMetaEnvHead
      else none
    match toHead with
    | none => none
    | some h =>
      let run := (cs.drop h.length).takeWhile envChar
      if run.isEmpty then none else some (String.mk run, h.length + run.length)
  else none

/-- The `matchAll` driver: fuelled left-to-right scan; on a match resume
right after it (every match here is at least one character long, so fuel
equal to the text length suffices). -/
def scanGo (tryAt : Option Char → List Char → Option (String × Nat)) :
    Nat → Option Char → List Char → List String
  | 0, _, _ => []
  | _, _, [] => []
  | n + 1, prev, c :: rest =>
    match tryAt prev (c :: rest) with
    | some (v, len) =>
      v :: scanGo tryAt n ((c :: rest).take len).getLast? ((c :: rest).drop len)
    | none => scanGo tryAt n (some c) rest

/-- The captured values of `text.matchAll(apiRe)`, in order. -/
def scanApi (text : String) : List String :=
  scanGo tryApiAt text.data.length none text.data

/-- The captured values of `text.matchAll(storageRe)`, in order. -/
def scanStorage (text : String) : List String :=
  scanGo tryStorageAt text.data.length none text.data

/-- The captured values of `text.matchAll(envRe)`, in order. -/
def scanEnv (text : String) : List String :=
  scanGo tryEnvAt text.data.length none text.data

/-- The collection loop shared by the three extractions: skip falsy values,
add (deduplicated, insertion-ordered) the values passing `keep`, and break
as soon as the accumulated set reaches `cap`. -/
def addCapped (cap : Nat) (keep : String → Bool) : List String → List String → List String
  | acc, [] => acc
  | acc, v :: vs =>
    if v == "" then addCapped cap keep acc vs
    else
      let acc' := if keep v && !(acc.contains v) then acc ++ [v] else acc
      if cap ≤ acc'.length then acc' else addCapped cap keep acc' vs

/-- The endpoint filter `v.startsWith('http://') || v.startsWith('https://')
|| v.startsWith('/api/')`. -/
def apiKeep (v : String) : Bool :=
  strStartsWith v "http://" || strStartsWith v "https://" || strStartsWith v "/api/"

/-- The semantic facts of one file. -/
structure Semantic : Type where
  feature : String
  routes : List String
  tags : List String
  apiEndpoints : List String
  storageKeys : List String
  envVars : List String
deriving DecidableEq

/-- `extractSemanticFromText(text, filePath, { externalDeps })`. -/
def extractSemanticFromText (text filePath : String) (externalDeps : List String) :
    Semantic :=
  let routes := inferRoutesFromPath filePath
  let tags0 : List String := if routes.isEmpty then [] else ["route"]
  let lowerPath := strToLower filePath
  let tags1 := TAG_KEYWORDS.foldl
    (fun acc kw => if strContains lowerPath kw then addUniq acc kw else acc) tags0
  let lowerText := strToLower text
  let tags2 := TAG_KEYWORDS.foldl
    (fun acc kw => if strContains lowerText kw then addUniq acc kw else acc) tags1
  let tags3 := externalDeps.foldl
    (fun acc dep =>
      let d := strToLower dep
      let acc1 :=
        if strContains d "reactflow" || strContains d "xyflow" then addUniq acc "flow"
        else acc
      let acc2 := if strContains d "qrcode" then addUniq acc1 "qrcode" else acc1
      if strContains d "jszip" then addUniq acc2 "zip" else acc2) tags2
  { feature := featureFromPath filePath
    routes := routes
    tags := insort tags3
    apiEndpoints := insort (addCapped 25 apiKeep [] (scanApi text))
    storageKeys := insort (addCapped 25 (fun _ => true) [] (scanStorage text))
    envVars := insort (addCapped 40 (fun _ => true) [] (scanEnv text)) }

example : scanApi "const u = \"/api/users\"; const v = \"/api/posts/1\";" =
    ["/api/users", "/api/posts/1"] := by decide
example : scanApi "fetch(\"https://x.y/z\")" = ["https://x.y/z"] := by decide
example : scanStorage "localStorage.getItem(\"tok\"); localStorage.setItem( \"b\", 1)" =
    ["tok", "b"] := by decide
example : scanEnv "process.env.FOO_1 + import.meta.env.BAR" = ["FOO_1", "BAR"] := by decide
example : scanEnv "xprocess.env.FOO" = [] := by decide
example : addCapped 2 (fun _ => true) [] ["a", "b", "a", "c"] = ["a", "b"] := by decide
example : inferRoutesFromPath "pages/home.tsx" = ["/home"] := by decide
example : inferRoutesFromPath "pages/index.tsx" = ["/"] := by decide
example : featureFromPath "index.tsx" = "app/entry" := by decide
example : featureFromPathDesc "index.tsx" = "module" := by decide

/-! ## File records, the environment, and `generateIndex` -/

/-- What `parseTsFile` extracts from one file's text (the TypeScript AST
walk; the parser itself is an external library, threaded in through `Env`).
The specifier and name lists come out of `Set`s, already sorted. -/
structure Parsed : Type where
  importSpecifiers : List String
  dynamicImportSpecifiers : List String
  exportsNamed : List String
  exportsDefault : Bool
deriving DecidableEq

/-- A per-file record of `index.json` (`exports.named`/`exports.default`
flattened into two fields).  `semantic` is optional because a record read
back from a previous snapshot may lack it — exactly what the reuse gate
checks. -/
structure FileRecord : Type where
  path : String
  kind : String
  bytes : Nat
  sha256 : String
  importSpecifiers : List String
  dynamicImportSpecifiers : List String
  exportsNamed : List String
  exportsDefault : Bool
  semantic : Option Semantic
deriving DecidableEq

/-- `deps[path]`: the three per-file dependency lists (`local`,
`localUnresolved`, `external` of the script). -/
structure DepsEntry : Type where
  localPaths : List String
  localUnresolved : List String
  externalPkgs : List String
deriving DecidableEq

/-- `graph` of the snapshot. -/
structure Graph : Type where
  deps : JObj DepsEntry
  reverseDeps : JObj (List String)

/-- The full `index.json` snapshot (project metadata flattened). -/
structure Index : Type where
  schemaVersion : Nat
  generatedAt : String
  projectName : String
  aliasRules : List AliasRule
  countTracked : Nat
  countSource : Nat
  files : JObj FileRecord
  graph : Graph

/-- The effectful collaborators of one run, as pure functions: the external
TypeScript parser, the filesystem-existence probe, file reads, the content
hash, the tracked-file listing and the alias configuration. -/
structure Env : Type where
  parse : String → String → Parsed
  fsEx : String → Bool
  fileText : String → String
  hash : String → String
  tracked : List String
  aliasRules : List AliasRule
  projectName : String

def SCHEMA_VERSION : Nat := 2

/-- UTF-8 byte length (`Buffer.byteLength(text, 'utf8')`). -/
def utf8Len (s : String) : Nat := s.data.foldl (fun n c => n + c.utf8Size) 0

/-- `tracked.filter((p) => SOURCE_EXTENSIONS.has(path.extname(p)))`. -/
def sourceFilesOf (env : Env) : List String :=
  env.tracked.filter (fun p => SOURCE_EXTENSIONS.contains (extname p))

/-- Lines 332–337: the deduplicated, sorted external package identities fed
to the semantic tagger. -/
def externalDepsOf (aliasR : List AliasRule) (parsed : Parsed) : List String :=
  let rawSpecs := parsed.importSpecifiers ++ parsed.dynamicImportSpecifiers
  let ext := (rawSpecs.filter (fun spec => !(isLocalImportShaped aliasR spec))).map
    externalPackageName
  insort (dedupFirst ext)

/-- Lines 330–346: the freshly computed record of one file. -/
def freshRecord (env : Env) (relPath text digest : String) : FileRecord :=
  let parsed := env.parse text relPath
  let externalDeps := externalDepsOf env.aliasRules parsed
  { path := relPath
    kind := strDrop (extname relPath) 1
    bytes := utf8Len text
    sha256 := digest
    importSpecifiers := parsed.importSpecifiers
    dynamicImportSpecifiers := parsed.dynamicImportSpecifiers
    exportsNamed := parsed.exportsNamed
    exportsDefault := parsed.exportsDefault
    semantic := some (extractSemanticFromText text relPath externalDeps) }

/-- Lines 314–347: per-file processing with the cache-reuse gate — carry the
prior record verbatim iff its stored hash equals the fresh digest, the prior
snapshot's schema version is current, and its semantic facts are present. -/
def processFile (env : Env) (prevIdx : Option Index) (relPath : String) : FileRecord :=
  let text := env.fileText relPath
  let digest := env.hash text
  match prevIdx with
  | some pi =>
    match objGet pi.files relPath with
    | some prev =>
      if prev.sha256 == digest && pi.schemaVersion == SCHEMA_VERSION &&
          prev.semantic.isSome then prev
      else freshRecord env relPath text digest
    | none => freshRecord env relPath text digest
  | none => freshRecord env relPath text digest

/-- One iteration of the specifier loop: push the classified specifier onto
the matching list. -/
def classifyStep (fsEx : String → Bool) (aliasR : List AliasRule) (relPath : String)
    (acc : List String × List String × List String) (spec : String) :
    List String × List String × List String :=
  match classifySpec fsEx aliasR relPath spec with
  | Dep.localR p => (acc.1 ++ [p], acc.2.1, acc.2.2)
  | Dep.localU s => (acc.1, acc.2.1 ++ [s], acc.2.2)
  | Dep.externalR pk => (acc.1, acc.2.1, acc.2.2 ++ [pk])

/-- Lines 355–386: classify every raw specifier of one file (the record
under key `relPath`) and sort the three lists. -/
def depsFor (fsEx : String → Bool) (aliasR : List AliasRule) (relPath : String)
    (file : FileRecord) : DepsEntry :=
  let raw := file.importSpecifiers ++ file.dynamicImportSpecifiers
  let trip := raw.foldl (classifyStep fsEx aliasR relPath) ([], [], [])
  { localPaths := insort trip.1
    localUnresolved := insort trip.2.1
    externalPkgs := insort trip.2.2 }

/-- `if (!reverseDeps[to]) reverseDeps[to] = []; reverseDeps[to].push(p)`
(an existing empty array is truthy, so only a missing entry is created). -/
def rdPush (rd : JObj (List String)) (tgt fromP : String) : JObj (List String) :=
  objInsert rd tgt ((objGet rd tgt).getD [] ++ [fromP])

/-- The `deps[relPath] = { ... }` assignment of one loop iteration. -/
def depsStep (fsEx : String → Bool) (aliasR : List AliasRule) (d : JObj DepsEntry)
    (kv : String × FileRecord) : JObj DepsEntry :=
  objInsert d kv.1 (depsFor fsEx aliasR kv.1 kv.2)

/-- The reverse-edge pushes of one loop iteration (the loop computes the
file's `DepsEntry` once and uses it for both maps; `depsFor` is pure, so the
recomputation here is the same value). -/
def rdStep (fsEx : String → Bool) (aliasR : List AliasRule) (rd : JObj (List String))
    (kv : String × FileRecord) : JObj (List String) :=
  (depsFor fsEx aliasR kv.1 kv.2).localPaths.foldl
    (fun rd tgt => rdPush rd tgt kv.1) rd

/-- Lines 349–394: the graph phase — seed `reverseDeps` with an empty entry
for every discovered file, then walk the files once, assigning `deps` and
pushing reverse edges, and finally sort every reverse list. -/
def buildGraph (fsEx : String → Bool) (aliasR : List AliasRule)
    (files : JObj FileRecord) : Graph :=
  let allPaths := files.map (fun kv => kv.1)
  let rd0 : JObj (List String) := allPaths.foldl (fun rd p => objInsert rd p []) []
  let dr := files.foldl
    (fun (acc : JObj DepsEntry × JObj (List String)) kv =>
      (depsStep fsEx aliasR acc.1 kv, rdStep fsEx aliasR acc.2 kv))
    (([] : JObj DepsEntry), rd0)
  { deps := dr.1, reverseDeps := dr.2.map (fun kl => (kl.1, insort kl.2)) }

/-- `generateIndex()` as a pure function of the environment, the previous
snapshot (`none`: missing or unreadable) and the generation timestamp. -/
def generateIndex (env : Env) (prevIdx : Option Index) (now : String) : Index :=
  let srcs := sourceFilesOf env
  let files := srcs.foldl (fun o p => objInsert o p (processFile env prevIdx p)) []
  { schemaVersion := SCHEMA_VERSION
    generatedAt := now
    projectName := env.projectName
    aliasRules := env.aliasRules
    countTracked := env.tracked.length
    countSource := srcs.length
    files := files
    graph := buildGraph env.fsEx env.aliasRules files }

/-! ## Description synthesizer (`describe-files.mjs`) -/

def DESC_SCHEMA_VERSION : Nat := 2

/-- One record of `descriptions.json`.  `carriedFrom` is `none` when the
field is absent (a fresh record) and `some g` when present (`g` itself
optional: `prev.generatedAt ?? null`). -/
structure DescRecord : Type where
  path : String
  sha256 : Option String
  feature : String
  description : Option String
  needsReview : Option Bool
  carriedFrom : Option (Option String)
deriving DecidableEq

/-- The `descriptions.json` snapshot. -/
structure DescFile : Type where
  schemaVersion : Nat
  generatedAt : Option String
  files : JObj DescRecord
deriving DecidableEq

/-- JavaScript truthiness of an optional string (absent, null and `''` are
falsy). -/
def truthyStr : Option String → Bool
  | none => false
  | some s => !(s == "")

/-- `list.join(', ')`. -/
def joinComma : List String → String
  | [] => ""
  | [s] => s
  | s :: t => s ++ ", " ++ joinComma t

/-- `list.join(' | ')`. -/
def joinBar : List String → String
  | [] => ""
  | [s] => s
  | s :: t => s ++ " | " ++ joinBar t

/-- `defaultDescription({ filePath, file, deps })`: the fixed-template
per-file summary. -/
def defaultDescription (filePath : String) (file : FileRecord)
    (depsE : Option DepsEntry) : String :=
  let feature := featureFromPathDesc filePath
  let baseName := stripJsExt (basename filePath)
  let sem := file.semantic
  let routes := (sem.map Semantic.routes).getD []
  let tags := (sem.map Semantic.tags).getD []
  let apiEndpoints := (sem.map Semantic.apiEndpoints).getD []
  let storageKeys := (sem.map Semantic.storageKeys).getD []
  let envVars := (sem.map Semantic.envVars).getD []
  let named := file.exportsNamed.take 6
  let hasDefault := file.exportsDefault
  let externalT := dedupFirst (((depsE.map DepsEntry.externalPkgs).getD []).take 6)
  let localT := ((depsE.map DepsEntry.localPaths).getD []).take 4
  let exportHint :=
    if named.length != 0 || hasDefault then
      "Exports: " ++
        joinComma ((if hasDefault then ["default"] else []) ++
          named.filter (fun s => !(s == ""))) ++ "."
    else "Exports: (none detected)."
  let depHintParts :=
    (if externalT.length != 0 then ["Ext deps: " ++ joinComma externalT] else []) ++
      (if localT.length != 0 then ["Local deps: " ++ joinComma localT] else [])
  let depHint :=
    if depHintParts.length != 0 then joinBar depHintParts else "Deps: (none detected)."
  let semanticParts :=
    (if routes.length != 0 then ["Routes: " ++ joinComma (routes.take 3)] else []) ++
      (if tags.length != 0 then ["Tags: " ++ joinComma (tags.take 8)] else []) ++
      (if apiEndpoints.length != 0 then ["API: " ++ joinComma (apiEndpoints.take 2)] else []) ++
      (if storageKeys.length != 0 then ["Storage: " ++ joinComma (storageKeys.take 2)] else []) ++
      (if envVars.length != 0 then ["Env: " ++ joinComma (envVars.take 4)] else [])
  let semTail := if semanticParts.length != 0 then " " ++ joinBar semanticParts else ""
  let core := " (" ++ feature ++ "). " ++ exportHint ++ " " ++ depHint ++ semTail
  if feature == "route/page" then
    let route := if baseName == "index" then "/" else "/" ++ baseName
    "Page for route `" ++ route ++ "`" ++ core
  else if feature == "ui/component" then "UI component `" ++ baseName ++ "`" ++ core
  else if feature == "utility" then "Utility module `" ++ baseName ++ "`" ++ core
  else if feature == "worker/backend" then "Worker module `" ++ baseName ++ "`" ++ core
  else if feature == "app/shell" then "App entry/shell `" ++ baseName ++ "`" ++ core
  else "Module `" ++ baseName ++ "`" ++ core

/-- The fresh description record of lines 123–133. -/
def freshDesc (idx : Index) (p : String) (f : FileRecord) : DescRecord :=
  { path := p
    sha256 := some f.sha256
    feature := featureFromPathDesc p
    description := some (defaultDescription p f (objGet idx.graph.deps p))
    needsReview := some true
    carriedFrom := none }

/-- Lines 107–134, one file: carry `{ ...previous, carriedFrom }` iff the
prior snapshot's schema version is current, both hashes are present (truthy)
and equal, and the prior description is a string; regenerate otherwise. -/
def describeOne (idx : Index) (pd : DescFile) (p : String) (f : FileRecord) : DescRecord :=
  match objGet pd.files p with
  | some pr =>
    if pd.schemaVersion == DESC_SCHEMA_VERSION && truthyStr pr.sha256 &&
        !(f.sha256 == "") && pr.sha256 == some f.sha256 && pr.description.isSome then
      { pr with carriedFrom := some pd.generatedAt }
    else freshDesc idx p f
  | none => freshDesc idx p f

/-- `main()` of `describe-files.mjs` as a pure function of the index
snapshot, the previous description snapshot and the generation timestamp. -/
def describeRun (idx : Index) (prevD : Option DescFile) (now : String) : DescFile :=
  let pd := prevD.getD ⟨DESC_SCHEMA_VERSION, none, []⟩
  { schemaVersion := DESC_SCHEMA_VERSION
    generatedAt := some now
    files := idx.files.foldl (fun acc kv => objInsert acc kv.1 (describeOne idx pd kv.1 kv.2)) [] }

/-- A tiny concrete environment (the end-to-end scenario of the spec's §8:
a page importing a utility). -/
def envE2E : Env :=
  { parse := fun _ name =>
      if name == "pages/home.tsx" then ⟨["../utils/fmt"], [], [], false⟩
      else ⟨[], [], ["formatDate"], false⟩
    fsEx := fun p => p == "pages/home.tsx" || p == "utils/fmt.ts"
    fileText := fun p =>
      if p == "pages/home.tsx" then "import formatDate from \"../utils/fmt\";"
      else "export const formatDate = 1;"
    hash := fun t => "#" ++ t
    tracked := ["README.md", "pages/home.tsx", "utils/fmt.ts"]
    aliasRules := []
    projectName := "demo" }

example :
    objGet (generateIndex envE2E none "T1").graph.deps "pages/home.tsx" =
      some ⟨["utils/fmt.ts"], [], []⟩ := by decide
example :
    objGet (generateIndex envE2E none "T1").graph.reverseDeps "utils/fmt.ts" =
      some ["pages/home.tsx"] := by decide
example :
    objGet (generateIndex envE2E none "T1").graph.reverseDeps "pages/home.tsx" =
      some [] := by decide
example :
    (objGet (generateIndex envE2E none "T1").files "pages/home.tsx").map
        (fun r => (r.semantic.map Semantic.routes).getD []) = some ["/home"] := by decide

example : externalPackageName "@scope/pkg/sub/path" = "@scope/pkg" := by decide
example : externalPackageName "lodash/debounce" = "lodash" := by decide
example : externalPackageName "lodash" = "lodash" := by decide
example : externalPackageName "@scope" = "@scope" := by decide
example :
    applySimpleAlias "@app/widgets/button" [⟨"@app/*", [Json.str "./src/*"]⟩] =
      some "./src/widgets/button" := by decide
example : normPath "./src/widgets/button" = "src/widgets/button" := by decide
example :
    resolveLocalImport (fun p => p == "pages/a.tsx") "pages/b.tsx" "./a" [] =
      some "pages/a.tsx" := by decide
example :
    resolveLocalImport (fun p => p == "utils/fmt.ts") "pages/home.tsx" "../utils/fmt" [] =
      some "utils/fmt.ts" := by decide
example :
    resolveLocalImport (fun p => p == "a/index.css") "b.ts" "./a" [] =
      some "a/index.css" := by decide
example : resolveLocalImport (fun _ => false) "b.ts" "./a" [] = none := by decide

example : splitSlash "pages/b.tsx" = ["pages", "b.tsx"] := by decide
example : dirname "pages/b.tsx" = "pages" := by decide
example : dirname "b.tsx" = "." := by decide
example : joinPath "pages" "./a" = "pages/a" := by decide
example : joinPath "pages" "../utils/fmt" = "utils/fmt" := by decide
example : joinPath "." "../a" = "../a" := by decide
example : extname "a/b.test.ts" = ".ts" := by decide
example : extname "a/.babelrc" = "" := by decide
example : extname "noext" = "" := by decide
example : joinPath "." "index.ts" = "index.ts" := by decide
example : normPath "a" = "a" := by decide
example : insort ["b", "a", "c"] = ["a", "b", "c"] := by decide

/-! ## Helper lemmas -/

theorem listLe_total : ∀ as bs : List Char, listLe as bs = true ∨ listLe bs as = true
  | [], _ => Or.inl rfl
  | _ :: _, [] => Or.inr rfl
  | a :: as, b :: bs => by
    by_cases h1 : a.toNat < b.toNat
    · left; simp [listLe, h1]
    · by_cases h2 : b.toNat < a.toNat
      · right; simp [listLe, h2]
      · have := listLe_total as bs
        simpa [listLe, h1, h2] using this

theorem strLe_total (a b : String) : strLe a b = true ∨ strLe b a = true :=
  listLe_total a.data b.data

theorem mem_insortInsert (x y : String) (l : List String) :
    x ∈ insortInsert y l ↔ x = y ∨ x ∈ l := by
  induction l with
  | nil => simp [insortInsert]
  | cons z t ih =>
    by_cases h : strLe y z = true
    · simp [insortInsert, h]
    · simp [insortInsert, h, List.mem_cons, ih]
      tauto

theorem mem_insort (x : String) (l : List String) : x ∈ insort l ↔ x ∈ l := by
  induction l with
  | nil => simp [insort]
  | cons y t ih => simp [insort, mem_insortInsert, ih]

theorem sortedB_insortInsert (x : String) :
    ∀ l : List String, sortedB l = true → sortedB (insortInsert x l) = true
  | [], _ => by simp [insortInsert, sortedB]
  | [y], _ => by
    by_cases hxy : strLe x y = true
    · simp [insortInsert, hxy, sortedB]
    · have hyx : strLe y x = true := (strLe_total x y).resolve_left hxy
      simp [insortInsert, hxy, sortedB, hyx]
  | y :: z :: t, h => by
    have h1 : strLe y z = true := by
      have h' := h
      simp only [sortedB, Bool.and_eq_true] at h'
      exact h'.1
    have h2 : sortedB (z :: t) = true := by
      have h' := h
      simp only [sortedB, Bool.and_eq_true] at h'
      exact h'.2
    by_cases hxy : strLe x y = true
    · simp only [insortInsert, hxy, if_true]
      simp [sortedB, hxy, h1, h2]
    · have hyx : strLe y x = true := (strLe_total x y).resolve_left hxy
      have ihz := sortedB_insortInsert x (z :: t) h2
      simp only [insortInsert, hxy, if_false]
      by_cases hxz : strLe x z = true
      · simp only [insortInsert, hxz, if_true] at ihz ⊢
        simp [sortedB, hyx, hxz, h2]
      · simp only [insortInsert, hxz, if_false] at ihz ⊢
        simp only [sortedB, Bool.and_eq_true]
        exact ⟨h1, ihz⟩

theorem sortedB_insort (l : List String) : sortedB (insort l) = true := by
  induction l with
  | nil => rfl
  | cons x t ih => exact sortedB_insortInsert x (insort t) ih

/-! ## C10 — the two feature classifications -/

/-- C10 counterexample: at the concrete path `index.tsx` the Semantic
Tagger's classifier answers `app/entry` while the Description Synthesizer's
answers `module`, so the two functions are not equal. -/
theorem c10_counterexample_index_tsx :
    featureFromPath "index.tsx" = "app/entry" ∧
    featureFromPathDesc "index.tsx" = "module" ∧
    featureFromPath "index.tsx" ≠ featureFromPathDesc "index.tsx" :=
  ⟨by decide, by decide, by decide⟩

/-- C10 (amended): the two feature classifiers agree on every path except
the entry filenames — on `App.tsx` and `AppShell.tsx` the tagger answers
`app/entry` where the synthesizer answers `app/shell`, and on `index.tsx`
the tagger answers `app/entry` where the synthesizer answers `module`. -/
theorem c10_amended_feature_agreement :
    ∀ p : String,
      normalizeSlashes p ≠ "App.tsx" → normalizeSlashes p ≠ "AppShell.tsx" →
      normalizeSlashes p ≠ "index.tsx" →
      featureFromPath p = featureFromPathDesc p := by
  intro p h1 h2 h3
  simp only [featureFromPath, featureFromPathDesc]
  split_ifs <;> simp_all

/-- C10 witness: the amended agreement applied at `utils/x.ts`. -/
theorem c10_amended_witness :
    featureFromPath "utils/x.ts" = featureFromPathDesc "utils/x.ts" :=
  c10_amended_feature_agreement "utils/x.ts" (by decide) (by decide) (by decide)

/-! ## C7 — external package reduction -/

/-- C7: `externalPackageName` keeps exactly the first two `/`-separated
segments of a scoped (`@`-leading) specifier and only the first segment of
an unscoped one (a scoped name with no slash at all stays itself), matching
the spec's examples. -/
theorem c7_external_reduction :
    (∀ spec : String,
      externalPackageName spec =
        match splitSlash spec, strStartsWith spec "@" with
        | p0 :: p1 :: _, true => p0 ++ "/" ++ p1
        | p0 :: _, false => p0
        | _, _ => spec) ∧
    externalPackageName "@scope/pkg/sub/path" = "@scope/pkg" ∧
    externalPackageName "lodash/debounce" = "lodash" := by
  refine ⟨fun spec => ?_, by decide, by decide⟩
  unfold externalPackageName
  cases h : splitSlash spec with
  | nil => cases hs : strStartsWith spec "@" <;> simp [h, hs]
  | cons p0 t =>
    cases t with
    | nil => cases hs : strStartsWith spec "@" <;> simp [h, hs]
    | cons p1 t2 => cases hs : strStartsWith spec "@" <;> simp [h, hs]

/-! ## C3 — alias application -/

/-- First-hit walk over a list (the reference shape the amended C3 compares
`applySimpleAlias` against). -/
def firstSome {α β : Type} (f : α → Option β) : List α → Option β
  | [] => none
  | a :: l =>
    match f a with
    | some b => some b
    | none => firstSome f l

/-- What one step of the alias walk does: `applySimpleAlias` over a consed
rule list is the rule's own result when it is usable, and the walk over the
remaining rules otherwise. -/
theorem applySimpleAlias_cons (spec : String) (r : AliasRule) (rest : List AliasRule) :
    applySimpleAlias spec (r :: rest) =
      match ruleResult spec r with
      | some v => some v
      | none => applySimpleAlias spec rest := by
  simp only [applySimpleAlias, ruleResult]
  by_cases h1 : strEndsWith r.pattern "/*" = true
  · simp only [h1, if_true]
    by_cases h2 : strStartsWith spec (strDropRight r.pattern 2 ++ "/") = true
    · simp only [h2, if_true]
      cases ht : r.targets.head? with
      | none => rfl
      | some j =>
        cases j with
        | str t =>
          by_cases h3 : (t == "./*") = true
          · simp [h3]
          · by_cases h4 : strEndsWith t "/*" = true
            · simp [h3, h4]
            · simp [h3, h4]
        | null => rfl
        | bool b => rfl
        | num n => rfl
        | arr items => rfl
        | obj fields => rfl
    · simp [h2]
  · simp [h1]

/-- C3 (amended): `applySimpleAlias` returns the result of the FIRST rule
that is usable — wildcard-suffixed pattern, matching prefix, and a first
candidate target that is a string of passthrough or wildcard shape — where a
passthrough target yields the captured suffix and a wildcard target yields
the target prefix plus the suffix; every other rule (a matching rule whose
first target is a plain string included) is skipped and the later rules are
consulted.  Only the first candidate target of a rule is ever read
(`ruleResult` looks at `targets.head?` alone). -/
theorem c3_amended_first_usable_rule :
    ∀ (spec : String) (rules : List AliasRule),
      applySimpleAlias spec rules = firstSome (ruleResult spec) rules := by
  intro spec rules
  induction rules with
  | nil => rfl
  | cons r rest ih =>
    rw [applySimpleAlias_cons]
    cases h : ruleResult spec r with
    | none => simp [firstSome, h, ih]
    | some v => simp [firstSome, h]

/-- C3 counterexample: with `spec = "a/x"` and the rules
`[a/* → ["b"], a/* → ["./*"]]`, the first rule's non-wildcard prefix `a`
matches, yet the result `some "x"` is produced by the SECOND rule — with the
first rule alone the alias yields nothing — so the first prefix-matching
rule does not win as the claim states. -/
theorem c3_counterexample_fallthrough :
    applySimpleAlias "a/x" [⟨"a/*", [Json.str "b"]⟩, ⟨"a/*", [Json.str "./*"]⟩] =
        some "x" ∧
    applySimpleAlias "a/x" [⟨"a/*", [Json.str "b"]⟩] = none :=
  ⟨by decide, by decide⟩

/-! ## C2 — the resolution cascade -/

/-- `find?` answers the first list element satisfying the predicate: its
index is below every other satisfying index, and everything before it fails
the predicate. -/
theorem find?_eq_some_first {α : Type} (p : α → Bool) :
    ∀ (l : List α) (a : α), l.find? p = some a →
      ∃ i, l.get? i = some a ∧ p a = true ∧
        ∀ j, j < i → ∀ b, l.get? j = some b → p b = false
  | [], a, h => by simp [List.find?] at h
  | x :: t, a, h => by
    by_cases hx : p x = true
    · simp only [List.find?, hx] at h
      injection h with hxa
      subst hxa
      exact ⟨0, rfl, hx, fun j hj => absurd hj (Nat.not_lt_zero j)⟩
    · have hx' : p x = false := by simpa using hx
      simp only [List.find?, hx'] at h
      obtain ⟨i, hi, hpa, hbefore⟩ := find?_eq_some_first p t a h
      refine ⟨i + 1, by simpa using hi, hpa, ?_⟩
      intro j hj b hb
      cases j with
      | zero =>
        simp only [List.get?] at hb
        cases hb
        exact hx'
      | succ j2 =>
        exact hbefore j2 (by omega) b (by simpa using hb)

/-- C2: for every LOCAL candidate the resolver derives (relative join,
root-absolute strip, or truthy alias rewrite), the probe list is the
candidate alone when it already has an extension, and otherwise exactly the
eight recognised extensions appended directly followed by the eight appended
under `/index`, in that fixed order; the resolver answers the first probed
path that exists, answers `none` exactly when no probe exists, and a failed
resolution of a local-shaped specifier is classified LOCAL_UNRESOLVED —
a constructor disjoint from EXTERNAL. -/
theorem c2_resolution_cascade (fsEx : String → Bool) (aliasR : List AliasRule)
    (importer spec : String) :
    (∀ cand, candidateOf aliasR importer spec = some cand →
      (resolveLocalImport fsEx importer spec aliasR =
          (if hasExtension (normPath cand) then [normPath cand] else
            [normPath cand ++ ".ts", normPath cand ++ ".tsx", normPath cand ++ ".js",
             normPath cand ++ ".jsx", normPath cand ++ ".mjs", normPath cand ++ ".cjs",
             normPath cand ++ ".json", normPath cand ++ ".css",
             joinPath (normPath cand) "index.ts", joinPath (normPath cand) "index.tsx",
             joinPath (normPath cand) "index.js", joinPath (normPath cand) "index.jsx",
             joinPath (normPath cand) "index.mjs", joinPath (normPath cand) "index.cjs",
             joinPath (normPath cand) "index.json",
             joinPath (normPath cand) "index.css"]).find? fsEx) ∧
      (∀ probes, probes =
          (if hasExtension (normPath cand) then [normPath cand] else
            [normPath cand ++ ".ts", normPath cand ++ ".tsx", normPath cand ++ ".js",
             normPath cand ++ ".jsx", normPath cand ++ ".mjs", normPath cand ++ ".cjs",
             normPath cand ++ ".json", normPath cand ++ ".css",
             joinPath (normPath cand) "index.ts", joinPath (normPath cand) "index.tsx",
             joinPath (normPath cand) "index.js", joinPath (normPath cand) "index.jsx",
             joinPath (normPath cand) "index.mjs", joinPath (normPath cand) "index.cjs",
             joinPath (normPath cand) "index.json",
             joinPath (normPath cand) "index.css"]) →
        (∀ p, resolveLocalImport fsEx importer spec aliasR = some p →
          ∃ i, probes.get? i = some p ∧ fsEx p = true ∧
            ∀ j, j < i → ∀ q, probes.get? j = some q → fsEx q = false) ∧
        (resolveLocalImport fsEx importer spec aliasR = none ↔
          ∀ p ∈ probes, fsEx p = false))) ∧
    (resolveLocalImport fsEx importer spec aliasR = none →
      isLocalImportShaped aliasR spec = true →
      classifySpec fsEx aliasR importer spec = Dep.localU spec) ∧
    (resolveLocalImport fsEx importer spec aliasR = none →
      isLocalImportShaped aliasR spec = false →
      classifySpec fsEx aliasR importer spec =
        Dep.externalR (externalPackageName spec)) ∧
    (∀ s pk, Dep.localU s ≠ Dep.externalR pk) := by
  refine ⟨?_, ?_, ?_, ?_⟩
  · intro cand hcand
    have hres : resolveLocalImport fsEx importer spec aliasR =
        (if hasExtension (normPath cand) then [normPath cand] else
          [normPath cand ++ ".ts", normPath cand ++ ".tsx", normPath cand ++ ".js",
           normPath cand ++ ".jsx", normPath cand ++ ".mjs", normPath cand ++ ".cjs",
           normPath cand ++ ".json", normPath cand ++ ".css",
           joinPath (normPath cand) "index.ts", joinPath (normPath cand) "index.tsx",
           joinPath (normPath cand) "index.js", joinPath (normPath cand) "index.jsx",
           joinPath (normPath cand) "index.mjs", joinPath (normPath cand) "index.cjs",
           joinPath (normPath cand) "index.json",
           joinPath (normPath cand) "index.css"]).find? fsEx := by
      simp only [resolveLocalImport, hcand]
      rfl
    refine ⟨hres, ?_⟩
    rintro probes rfl
    constructor
    · intro p hp
      rw [hres] at hp
      exact find?_eq_some_first fsEx _ p hp
    · rw [hres, List.find?_eq_none]
      simp
  · intro h1 h2
    simp [classifySpec, h1, h2]
  · intro h1 h2
    simp [classifySpec, h1, h2]
  · intro s pk
    simp

/-- C2 witness: the cascade at concrete inputs — `./a` from `pages/b.tsx`
resolves to the existing `pages/a.tsx`, and an unresolvable `./miss` is
classified LOCAL_UNRESOLVED. -/
theorem c2_resolution_witness :
    resolveLocalImport (fun p => p == "pages/a.tsx") "pages/b.tsx" "./a" [] =
        some "pages/a.tsx" ∧
    classifySpec (fun _ => false) [] "pages/b.tsx" "./miss" = Dep.localU "./miss" := by
  constructor
  · decide
  · exact (c2_resolution_cascade (fun _ => false) [] "pages/b.tsx" "./miss").2.1
      (by decide) (by decide)

/-! ## Association-list lemmas -/

/-- Does the object hold the key? -/
def containsKey {α : Type} (o : JObj α) (k : String) : Bool :=
  (o.find? (fun kv => kv.1 == k)).isSome

theorem containsKey_iff_mem {α : Type} (o : JObj α) (k : String) :
    containsKey o k = true ↔ k ∈ o.map Prod.fst := by
  simp only [containsKey, List.find?_isSome, List.mem_map]
  constructor
  · rintro ⟨kv, hkv, he⟩
    exact ⟨kv, hkv, by simpa using he⟩
  · rintro ⟨kv, hkv, he⟩
    exact ⟨kv, hkv, by simpa using he⟩

theorem objInsert_of_contains {α : Type} (o : JObj α) (k : String) (v : α)
    (h : containsKey o k = true) :
    objInsert o k v = o.map (fun kv => if kv.1 == k then (k, v) else kv) := by
  rw [objInsert, if_pos (show (o.find? (fun kv => kv.1 == k)).isSome = true from h)]

theorem objInsert_of_not_contains {α : Type} (o : JObj α) (k : String) (v : α)
    (h : containsKey o k = false) : objInsert o k v = o ++ [(k, v)] := by
  have h2 : ¬ ((o.find? (fun kv => kv.1 == k)).isSome = true) := by
    intro hs
    rw [containsKey] at h
    rw [h] at hs
    simp at hs
  rw [objInsert, if_neg h2]

theorem keys_objInsert {α : Type} (o : JObj α) (k : String) (v : α) :
    (objInsert o k v).map Prod.fst =
      if containsKey o k then o.map Prod.fst else o.map Prod.fst ++ [k] := by
  by_cases h : containsKey o k = true
  · rw [objInsert_of_contains o k v h, if_pos h, List.map_map]
    apply List.map_congr_left
    intro kv _
    by_cases hk : (kv.1 == k) = true
    · have he : kv.1 = k := by simpa using hk
      simp [Function.comp, hk, he]
    · simp [Function.comp, hk]
  · have h2 : containsKey o k = false := by simpa using h
    rw [objInsert_of_not_contains o k v h2, if_neg h]
    simp

theorem keysNodup_objInsert {α : Type} (o : JObj α) (k : String) (v : α)
    (h : (o.map Prod.fst).Nodup) : ((objInsert o k v).map Prod.fst).Nodup := by
  rw [keys_objInsert]
  by_cases hc : containsKey o k = true
  · simpa [hc] using h
  · have hc2 : containsKey o k = false := by simpa using hc
    have hk : k ∉ o.map Prod.fst := fun hm => by
      rw [(containsKey_iff_mem o k).mpr hm] at hc2
      simp at hc2
    simp [hc, List.nodup_append, h, hk]

theorem objGet_objInsert {α : Type} (o : JObj α) (k : String) (v : α) (q : String) :
    objGet (objInsert o k v) q = if q = k then some v else objGet o q := by
  by_cases hc : containsKey o k = true
  · rw [objInsert_of_contains o k v hc]
    rw [objGet, List.find?_map]
    have hpf : ((fun kv : String × α => kv.1 == q) ∘
          fun kv => if kv.1 == k then (k, v) else kv) =
        fun kv : String × α => kv.1 == q := by
      funext kv
      by_cases h : (kv.1 == k) = true
      · have he : kv.1 = k := by simpa using h
        simp [Function.comp, h, he]
      · simp [Function.comp, h]
    rw [hpf, Option.map_map]
    by_cases hq : q = k
    · subst hq
      rcases hfind : List.find? (fun kv : String × α => kv.1 == q) o with _ | kv
      · rw [containsKey, hfind] at hc
        exact absurd hc (by simp)
      · have hkv : kv.1 = q := by simpa using List.find?_some hfind
        simp [Function.comp, hkv]
    · rcases hfind : List.find? (fun kv : String × α => kv.1 == q) o with _ | kv
      · simp [objGet, hfind, hq]
      · have hkv : kv.1 = q := by simpa using List.find?_some hfind
        have hne : ¬ kv.1 = k := by
          rw [hkv]
          exact hq
        simp [objGet, hfind, hq, Function.comp, hne]
  · have hc2 : containsKey o k = false := by simpa using hc
    rw [objInsert_of_not_contains o k v hc2]
    rw [objGet, List.find?_append]
    rcases hfind : List.find? (fun kv : String × α => kv.1 == q) o with _ | kv
    · by_cases hq : q = k
      · subst hq
        simp [objGet, List.find?, Option.or]
      · have hkq : (k == q) = false := beq_eq_false_iff_ne.mpr (Ne.symm hq)
        simp [objGet, hfind, List.find?, hkq, Option.or, hq]
    · have hkv : kv.1 = q := by simpa using List.find?_some hfind
      by_cases hq : q = k
      · subst hq
        exfalso
        have hm := List.mem_of_find?_eq_some hfind
        have hs : (List.find? (fun kv : String × α => kv.1 == q) o).isSome = true :=
          List.find?_isSome.mpr (Exists.intro kv (And.intro hm (by simp [hkv])))
        rw [containsKey] at hc2
        rw [hc2] at hs
        simp at hs
      · simp [objGet, hfind, Option.or, hq]

/-! ## Fold lemmas over association lists -/

theorem isSome_objGet {α : Type} (o : JObj α) (q : String) :
    (objGet o q).isSome = containsKey o q := by
  rw [objGet, containsKey]
  cases o.find? (fun kv => kv.1 == q) <;> rfl

theorem mem_getD_iff (P : String) (x : Option (List String)) :
    P ∈ x.getD [] ↔ ∃ l, x = some l ∧ P ∈ l := by
  cases x <;> simp

theorem objGet_foldl_keyfun {α : Type} (f : String → α) :
    ∀ (l : List String) (o0 : JObj α) (q : String),
      objGet (l.foldl (fun o p => objInsert o p (f p)) o0) q =
        if q ∈ l then some (f q) else objGet o0 q
  | [], o0, q => by simp
  | p :: l, o0, q => by
    rw [List.foldl_cons, objGet_foldl_keyfun f l (objInsert o0 p (f p)) q]
    by_cases hl : q ∈ l
    · simp [hl]
    · by_cases hq : q = p
      · subst hq
        simp [hl, objGet_objInsert]
      · simp [hl, hq, objGet_objInsert]

theorem keysNodup_foldl_keyfun {α : Type} (f : String → α) :
    ∀ (l : List String) (o0 : JObj α), (o0.map Prod.fst).Nodup →
      ((l.foldl (fun o p => objInsert o p (f p)) o0).map Prod.fst).Nodup
  | [], _, h => h
  | p :: l, o0, h =>
    keysNodup_foldl_keyfun f l (objInsert o0 p (f p)) (keysNodup_objInsert o0 p (f p) h)

theorem objGet_foldl_pairs_nokey {α β : Type} (g : String × β → α) :
    ∀ (l : List (String × β)) (o0 : JObj α) (q : String),
      (∀ kv ∈ l, kv.1 ≠ q) →
      objGet (l.foldl (fun o kv => objInsert o kv.1 (g kv)) o0) q = objGet o0 q
  | [], _, _, _ => rfl
  | a :: l, o0, q, h => by
    rw [List.foldl_cons,
      objGet_foldl_pairs_nokey g l _ q (fun kv hk => h kv (List.mem_cons_of_mem a hk)),
      objGet_objInsert]
    exact if_neg (fun e => h a (List.mem_cons_self a l) e.symm)

theorem objGet_foldl_pairs_nodup {α β : Type} (g : String × β → α) :
    ∀ (l : List (String × β)) (o0 : JObj α) (q : String),
      (l.map Prod.fst).Nodup →
      objGet (l.foldl (fun o kv => objInsert o kv.1 (g kv)) o0) q =
        match l.find? (fun kv => kv.1 == q) with
        | some kv => some (g kv)
        | none => objGet o0 q
  | [], _, _, _ => rfl
  | a :: l, o0, q, h => by
    have hna : a.1 ∉ l.map Prod.fst := (List.nodup_cons.mp (by simpa using h)).1
    have hnd : (l.map Prod.fst).Nodup := (List.nodup_cons.mp (by simpa using h)).2
    rw [List.foldl_cons]
    by_cases hq : a.1 = q
    · subst hq
      have hnokey : ∀ kv ∈ l, kv.1 ≠ a.1 := by
        intro kv hkv e
        exact hna (e ▸ List.mem_map_of_mem Prod.fst hkv)
      rw [objGet_foldl_pairs_nokey g l _ a.1 hnokey, objGet_objInsert]
      simp [List.find?]
    · rw [objGet_foldl_pairs_nodup g l _ q hnd]
      have hfa : (a.1 == q) = false := beq_eq_false_iff_ne.mpr hq
      cases hfind : l.find? (fun kv => kv.1 == q) with
      | some kv => simp [List.find?, hfa, hfind]
      | none =>
        simp only [List.find?, hfa, hfind]
        rw [objGet_objInsert]
        exact if_neg (fun e => hq e.symm)

theorem keysNodup_foldl_pairs {α β : Type} (g : String × β → α) :
    ∀ (l : List (String × β)) (o0 : JObj α), (o0.map Prod.fst).Nodup →
      ((l.foldl (fun o kv => objInsert o kv.1 (g kv)) o0).map Prod.fst).Nodup
  | [], _, h => h
  | a :: l, o0, h =>
    keysNodup_foldl_pairs g l (objInsert o0 a.1 (g a)) (keysNodup_objInsert o0 a.1 (g a) h)

theorem foldl_objInsert_append {α β : Type} (g : String × β → α) :
    ∀ (l : List (String × β)) (o : JObj α),
      ((o.map Prod.fst ++ l.map Prod.fst).Nodup) →
      l.foldl (fun o kv => objInsert o kv.1 (g kv)) o =
        o ++ l.map (fun kv => (kv.1, g kv))
  | [], o, _ => by simp
  | a :: l, o, h => by
    have hrearr : o.map Prod.fst ++ ((a :: l).map Prod.fst) =
        (o.map Prod.fst ++ [a.1]) ++ l.map Prod.fst := by
      simp
    rw [hrearr] at h
    have hna : a.1 ∉ o.map Prod.fst := by
      have h2 : (o.map Prod.fst ++ [a.1]).Nodup := (List.nodup_append.mp h).1
      intro hm
      have hdisj := (List.nodup_append.mp h2).2.2
      exact hdisj hm (by simp)
    have hcf : containsKey o a.1 = false := by
      cases hck : containsKey o a.1 with
      | false => rfl
      | true => exact absurd ((containsKey_iff_mem o a.1).mp hck) hna
    rw [List.foldl_cons, objInsert_of_not_contains o a.1 (g a) hcf]
    rw [foldl_objInsert_append g l (o ++ [(a.1, g a)]) (by simpa using h)]
    simp

theorem find?_of_mem_keyNodup {β : Type} :
    ∀ (l : List (String × β)) (kv : String × β), (l.map Prod.fst).Nodup → kv ∈ l →
      l.find? (fun kv2 => (kv2.1 == kv.1)) = some kv
  | [], kv, _, h => absurd h (List.not_mem_nil kv)
  | a :: l, kv, hnd, h => by
    have hna : a.1 ∉ l.map Prod.fst := (List.nodup_cons.mp (by simpa using hnd)).1
    have hnd2 : (l.map Prod.fst).Nodup := (List.nodup_cons.mp (by simpa using hnd)).2
    rcases List.mem_cons.mp h with he | hm
    · subst he
      simp [List.find?]
    · have ha : (a.1 == kv.1) = false := by
        refine beq_eq_false_iff_ne.mpr ?_
        intro e
        exact hna (e ▸ List.mem_map_of_mem Prod.fst hm)
      simp only [List.find?, ha]
      exact find?_of_mem_keyNodup l kv hnd2 hm

theorem objGet_map_values {α β : Type} (f : α → β) (o : JObj α) (q : String) :
    objGet (o.map (fun kv => (kv.1, f kv.2))) q = (objGet o q).map f := by
  rw [objGet, List.find?_map, Option.map_map, objGet, Option.map_map]
  rfl

/-! ## Reverse-dependency push lemmas -/

theorem objGet_rdPush (rd : JObj (List String)) (tgt fromP q : String) :
    objGet (rdPush rd tgt fromP) q =
      if q = tgt then some ((objGet rd tgt).getD [] ++ [fromP]) else objGet rd q := by
  rw [rdPush, objGet_objInsert]

theorem memRD_pushList (fromP : String) :
    ∀ (ts : List String) (rd : JObj (List String)) (q P : String),
      (P ∈ (objGet (ts.foldl (fun rd tgt => rdPush rd tgt fromP) rd) q).getD []) ↔
        (P ∈ (objGet rd q).getD []) ∨ (P = fromP ∧ q ∈ ts)
  | [], rd, q, P => by simp
  | t :: ts, rd, q, P => by
    rw [List.foldl_cons, memRD_pushList fromP ts _ q P, objGet_rdPush]
    by_cases hq : q = t
    · subst hq
      rw [if_pos rfl]
      simp only [Option.getD_some, List.mem_append, List.mem_singleton, List.mem_cons,
        true_or, and_true]
      tauto
    · simp only [if_neg hq, List.mem_cons]
      constructor
      · rintro (h | ⟨h1, h2⟩)
        · exact Or.inl h
        · exact Or.inr ⟨h1, Or.inr h2⟩
      · rintro (h | ⟨h1, (h2 | h2)⟩)
        · exact Or.inl h
        · exact absurd h2 hq
        · exact Or.inr ⟨h1, h2⟩

theorem isSome_pushList (fromP : String) :
    ∀ (ts : List String) (rd : JObj (List String)) (q : String),
      ((objGet (ts.foldl (fun rd tgt => rdPush rd tgt fromP) rd) q).isSome = true ↔
        (objGet rd q).isSome = true ∨ q ∈ ts)
  | [], rd, q => by simp
  | t :: ts, rd, q => by
    rw [List.foldl_cons, isSome_pushList fromP ts _ q, objGet_rdPush]
    by_cases hq : q = t
    · subst hq
      simp
    · simp [hq]

theorem memRD_filesFold (fsEx : String → Bool) (aliasR : List AliasRule) :
    ∀ (files : JObj FileRecord) (rd : JObj (List String)) (q P : String),
      (P ∈ (objGet (files.foldl (fun rd kv => rdStep fsEx aliasR rd kv) rd) q).getD [] ↔
        (P ∈ (objGet rd q).getD []) ∨
          ∃ kv ∈ files, kv.1 = P ∧ q ∈ (depsFor fsEx aliasR kv.1 kv.2).localPaths)
  | [], rd, q, P => by simp
  | a :: files, rd, q, P => by
    rw [List.foldl_cons, memRD_filesFold fsEx aliasR files _ q P]
    show (P ∈ (objGet (rdStep fsEx aliasR rd a) q).getD []) ∨ _ ↔ _
    rw [rdStep, memRD_pushList]
    constructor
    · rintro ((h | ⟨h1, h2⟩) | ⟨kv, hkv, h1, h2⟩)
      · exact Or.inl h
      · exact Or.inr ⟨a, List.mem_cons_self a files, h1.symm, h2⟩
      · exact Or.inr ⟨kv, List.mem_cons_of_mem a hkv, h1, h2⟩
    · rintro (h | ⟨kv, hkv, h1, h2⟩)
      · exact Or.inl (Or.inl h)
      · rcases List.mem_cons.mp hkv with he | hm
        · subst he
          exact Or.inl (Or.inr ⟨h1.symm, h2⟩)
        · exact Or.inr ⟨kv, hm, h1, h2⟩

theorem isSome_filesFold (fsEx : String → Bool) (aliasR : List AliasRule) :
    ∀ (files : JObj FileRecord) (rd : JObj (List String)) (q : String),
      ((objGet (files.foldl (fun rd kv => rdStep fsEx aliasR rd kv) rd) q).isSome = true ↔
        (objGet rd q).isSome = true ∨
          ∃ kv ∈ files, q ∈ (depsFor fsEx aliasR kv.1 kv.2).localPaths)
  | [], rd, q => by simp
  | a :: files, rd, q => by
    rw [List.foldl_cons, isSome_filesFold fsEx aliasR files _ q]
    show ((objGet (rdStep fsEx aliasR rd a) q).isSome = true) ∨ _ ↔ _
    rw [rdStep, isSome_pushList]
    constructor
    · rintro ((h | h) | ⟨kv, hkv, h2⟩)
      · exact Or.inl h
      · exact Or.inr ⟨a, List.mem_cons_self a files, h⟩
      · exact Or.inr ⟨kv, List.mem_cons_of_mem a hkv, h2⟩
    · rintro (h | ⟨kv, hkv, h2⟩)
      · exact Or.inl (Or.inl h)
      · rcases List.mem_cons.mp hkv with he | hm
        · subst he
          exact Or.inl (Or.inr h2)
        · exact Or.inr ⟨kv, hm, h2⟩

/-! ## Looking up the built graph -/

theorem foldl_pair_split {α β γ : Type} (f : α → γ → α) (g : β → γ → β) :
    ∀ (l : List γ) (a : α) (b : β),
      l.foldl (fun ab c => (f ab.1 c, g ab.2 c)) (a, b) = (l.foldl f a, l.foldl g b)
  | [], _, _ => rfl
  | c :: l, a, b => foldl_pair_split f g l (f a c) (g b c)

theorem buildGraph_eq (fsEx : String → Bool) (aliasR : List AliasRule)
    (files : JObj FileRecord) :
    buildGraph fsEx aliasR files =
      { deps := files.foldl (fun d kv => depsStep fsEx aliasR d kv) [],
        reverseDeps :=
          (files.foldl (fun rd kv => rdStep fsEx aliasR rd kv)
              ((files.map (fun kv => kv.1)).foldl (fun rd p => objInsert rd p []) [])).map
            (fun kl => (kl.1, insort kl.2)) } := by
  rw [buildGraph]
  rw [foldl_pair_split (fun d kv => depsStep fsEx aliasR d kv)
    (fun rd kv => rdStep fsEx aliasR rd kv) files]

theorem graph_deps_lookup (fsEx : String → Bool) (aliasR : List AliasRule)
    (files : JObj FileRecord) (q : String) (h : (files.map Prod.fst).Nodup) :
    objGet (buildGraph fsEx aliasR files).deps q =
      match files.find? (fun kv => kv.1 == q) with
      | some kv => some (depsFor fsEx aliasR kv.1 kv.2)
      | none => none := by
  rw [buildGraph_eq]
  show objGet (files.foldl (fun d kv => depsStep fsEx aliasR d kv) []) q = _
  simp only [depsStep]
  rw [objGet_foldl_pairs_nodup (fun kv => depsFor fsEx aliasR kv.1 kv.2) files [] q h]
  cases files.find? (fun kv => kv.1 == q) <;> rfl

theorem graph_rd_lookup (fsEx : String → Bool) (aliasR : List AliasRule)
    (files : JObj FileRecord) (q : String) :
    objGet (buildGraph fsEx aliasR files).reverseDeps q =
      (objGet (files.foldl (fun rd kv => rdStep fsEx aliasR rd kv)
          ((files.map (fun kv => kv.1)).foldl (fun rd p => objInsert rd p []) [])) q).map
        insort := by
  rw [buildGraph_eq]
  show objGet ((files.foldl (fun rd kv => rdStep fsEx aliasR rd kv) _).map
    (fun kl => (kl.1, insort kl.2))) q = _
  rw [objGet_map_values insort]

/-! ## C1 — reverse-edge symmetry -/

/-- The symmetry at the `buildGraph` level, for any file map with unique
keys. -/
theorem buildGraph_symmetry (fsEx : String → Bool) (aliasR : List AliasRule)
    (files : JObj FileRecord) (h : (files.map Prod.fst).Nodup) (P Q : String) :
    ((∃ e, objGet (buildGraph fsEx aliasR files).deps P = some e ∧
        Q ∈ e.localPaths) ↔
      (∃ l, objGet (buildGraph fsEx aliasR files).reverseDeps Q = some l ∧
        P ∈ l)) ∧
    (containsKey files P = true →
      (objGet (buildGraph fsEx aliasR files).reverseDeps P).isSome = true) := by
  have hrd0 : ∀ q : String,
      objGet ((files.map (fun kv => kv.1)).foldl (fun rd p => objInsert rd p []) []) q =
        if q ∈ files.map (fun kv => kv.1) then some ([] : List String) else none := by
    intro q
    rw [objGet_foldl_keyfun (fun _ => ([] : List String))]
    rfl
  constructor
  · rw [graph_deps_lookup fsEx aliasR files P h]
    constructor
    · rintro ⟨e, he, hq⟩
      rcases hfind : files.find? (fun kv => kv.1 == P) with _ | kv
      · rw [hfind] at he
        exact absurd he (by simp)
      · rw [hfind] at he
        have hkv1 : kv.1 = P := by simpa using List.find?_some hfind
        have hkvm : kv ∈ files := List.mem_of_find?_eq_some hfind
        have he2 : e = depsFor fsEx aliasR kv.1 kv.2 := by
          injection he with h2
          exact h2.symm
        have hmem : P ∈ (objGet (files.foldl (fun rd kv => rdStep fsEx aliasR rd kv)
            ((files.map (fun kv => kv.1)).foldl (fun rd p => objInsert rd p []) []))
              Q).getD [] := by
          rw [memRD_filesFold]
          right
          exact ⟨kv, hkvm, hkv1, by rw [← he2]; exact hq⟩
        rw [mem_getD_iff] at hmem
        rcases hmem with ⟨l0, hl0, hPl0⟩
        refine ⟨insort l0, ?_, (mem_insort P l0).mpr hPl0⟩
        rw [graph_rd_lookup, hl0]
        rfl
    · rintro ⟨l, hl, hPl⟩
      rw [graph_rd_lookup] at hl
      rcases hopt : objGet (files.foldl (fun rd kv => rdStep fsEx aliasR rd kv)
          ((files.map (fun kv => kv.1)).foldl (fun rd p => objInsert rd p []) []))
            Q with _ | l0
      · rw [hopt] at hl
        exact absurd hl (by simp)
      · rw [hopt] at hl
        have hli : l = insort l0 := by
          injection hl with h2
          exact h2.symm
        have hP0 : P ∈ l0 := (mem_insort P l0).mp (hli ▸ hPl)
        have hmem : P ∈ (objGet (files.foldl (fun rd kv => rdStep fsEx aliasR rd kv)
            ((files.map (fun kv => kv.1)).foldl (fun rd p => objInsert rd p []) []))
              Q).getD [] := by
          rw [hopt]
          exact hP0
        rw [memRD_filesFold] at hmem
        rcases hmem with hinit | ⟨kv, hkvm, hkv1, hq⟩
        · rw [hrd0 Q] at hinit
          by_cases hQk : Q ∈ files.map (fun kv => kv.1) <;> simp [hQk] at hinit
        · have hfind : files.find? (fun kv2 => kv2.1 == kv.1) = some kv :=
            find?_of_mem_keyNodup files kv h hkvm
          rw [hkv1] at hfind
          rw [hfind]
          exact ⟨depsFor fsEx aliasR kv.1 kv.2, rfl, hq⟩
  · intro hck
    rw [graph_rd_lookup]
    have hiso : ∀ x : Option (List String), (x.map insort).isSome = x.isSome := by
      intro x
      cases x <;> rfl
    rw [hiso, isSome_filesFold]
    left
    rw [hrd0 P]
    have hmem : P ∈ files.map (fun kv => kv.1) := by
      have h2 := (containsKey_iff_mem files P).mp hck
      simpa using h2
    rw [if_pos hmem]
    rfl

/-- The generated snapshot's file keys are unique. -/
theorem generateIndex_files_keysNodup (env : Env) (prevIdx : Option Index) (now : String) :
    (((generateIndex env prevIdx now).files).map Prod.fst).Nodup := by
  rw [generateIndex]
  exact keysNodup_foldl_keyfun (fun p => processFile env prevIdx p) (sourceFilesOf env) []
    (by simp)

/-- C1: in every generated snapshot, `Q ∈ deps[P].local` exactly when
`P ∈ reverseDeps[Q]`, and every discovered file (every key of `files`) has a
`reverseDeps` entry, possibly empty. -/
theorem c1_reverse_edge_symmetry :
    ∀ (env : Env) (prevIdx : Option Index) (now : String) (P Q : String),
      ((∃ e, objGet (generateIndex env prevIdx now).graph.deps P = some e ∧
          Q ∈ e.localPaths) ↔
        (∃ l, objGet (generateIndex env prevIdx now).graph.reverseDeps Q = some l ∧
          P ∈ l)) ∧
      ((objGet (generateIndex env prevIdx now).files P).isSome = true →
        (objGet (generateIndex env prevIdx now).graph.reverseDeps P).isSome = true) := by
  intro env prevIdx now P Q
  have hnd := generateIndex_files_keysNodup env prevIdx now
  have hsym := buildGraph_symmetry env.fsEx env.aliasRules
    (generateIndex env prevIdx now).files hnd P Q
  have hgraph : (generateIndex env prevIdx now).graph =
      buildGraph env.fsEx env.aliasRules (generateIndex env prevIdx now).files := by
    rw [generateIndex]
  constructor
  · rw [hgraph]
    exact hsym.1
  · intro hfile
    rw [hgraph]
    exact hsym.2 (by rw [← isSome_objGet]; exact hfile)

/-! ## C4 — per-file dependency lists -/

/-- Which local path one specifier contributes. -/
def localSel (fsEx : String → Bool) (aliasR : List AliasRule) (relPath spec : String) :
    Option String :=
  match classifySpec fsEx aliasR relPath spec with
  | Dep.localR p => some p
  | _ => none

/-- Which unresolved specifier one specifier contributes. -/
def unresolvedSel (fsEx : String → Bool) (aliasR : List AliasRule)
    (relPath spec : String) : Option String :=
  match classifySpec fsEx aliasR relPath spec with
  | Dep.localU s => some s
  | _ => none

/-- Which external package one specifier contributes. -/
def externalSel (fsEx : String → Bool) (aliasR : List AliasRule)
    (relPath spec : String) : Option String :=
  match classifySpec fsEx aliasR relPath spec with
  | Dep.externalR pk => some pk
  | _ => none

theorem classifyFold_eq (fsEx : String → Bool) (aliasR : List AliasRule)
    (relPath : String) :
    ∀ (raw : List String) (acc : List String × List String × List String),
      raw.foldl (classifyStep fsEx aliasR relPath) acc =
        (acc.1 ++ raw.filterMap (localSel fsEx aliasR relPath),
          acc.2.1 ++ raw.filterMap (unresolvedSel fsEx aliasR relPath),
          acc.2.2 ++ raw.filterMap (externalSel fsEx aliasR relPath))
  | [], acc => by simp
  | spec :: raw, acc => by
    rw [List.foldl_cons]
    cases hcl : classifySpec fsEx aliasR relPath spec with
    | localR p =>
      have hstep : classifyStep fsEx aliasR relPath acc spec =
          (acc.1 ++ [p], acc.2.1, acc.2.2) := by
        rw [classifyStep, hcl]
      rw [hstep, classifyFold_eq fsEx aliasR relPath raw _]
      simp [localSel, unresolvedSel, externalSel, List.filterMap_cons, hcl]
    | localU s =>
      have hstep : classifyStep fsEx aliasR relPath acc spec =
          (acc.1, acc.2.1 ++ [s], acc.2.2) := by
        rw [classifyStep, hcl]
      rw [hstep, classifyFold_eq fsEx aliasR relPath raw _]
      simp [localSel, unresolvedSel, externalSel, List.filterMap_cons, hcl]
    | externalR pk =>
      have hstep : classifyStep fsEx aliasR relPath acc spec =
          (acc.1, acc.2.1, acc.2.2 ++ [pk]) := by
        rw [classifyStep, hcl]
      rw [hstep, classifyFold_eq fsEx aliasR relPath raw _]
      simp [localSel, unresolvedSel, externalSel, List.filterMap_cons, hcl]

theorem depsFor_fields (fsEx : String → Bool) (aliasR : List AliasRule)
    (relPath : String) (file : FileRecord) :
    depsFor fsEx aliasR relPath file =
      { localPaths := insort ((file.importSpecifiers ++ file.dynamicImportSpecifiers).filterMap
          (localSel fsEx aliasR relPath))
        localUnresolved := insort ((file.importSpecifiers ++
          file.dynamicImportSpecifiers).filterMap (unresolvedSel fsEx aliasR relPath))
        externalPkgs := insort ((file.importSpecifiers ++
          file.dynamicImportSpecifiers).filterMap (externalSel fsEx aliasR relPath)) } := by
  rw [depsFor, classifyFold_eq]
  simp

/-- Resolve an `objGet` hit to its entry. -/
theorem objGet_eq_some {α : Type} (o : JObj α) (q : String) (v : α)
    (h : objGet o q = some v) :
    ∃ kv, o.find? (fun kv => kv.1 == q) = some kv ∧ kv.1 = q ∧ kv.2 = v ∧ kv ∈ o := by
  rw [objGet] at h
  rcases hf : o.find? (fun kv => kv.1 == q) with _ | kv
  · rw [hf] at h
    exact absurd h (by simp)
  · rw [hf] at h
    refine ⟨kv, hf, by simpa using List.find?_some hf, ?_, List.mem_of_find?_eq_some hf⟩
    injection h

/-- C4 (amended): in every generated snapshot, a file's three dependency
lists are each lexicographically sorted, and each merges the contributions
of both the static and the dynamic import specifiers of the file's record —
but the lists are NOT deduplicated: a specifier appearing both statically
and dynamically (or two specifiers reducing to one target or package)
appears more than once. -/
theorem c4_amended_sorted_merged_lists :
    ∀ (env : Env) (prevIdx : Option Index) (now : String) (P : String)
      (f : FileRecord) (e : DepsEntry),
      objGet (generateIndex env prevIdx now).files P = some f →
      objGet (generateIndex env prevIdx now).graph.deps P = some e →
      (sortedB e.localPaths = true ∧ sortedB e.localUnresolved = true ∧
        sortedB e.externalPkgs = true) ∧
      (∀ x, x ∈ e.localPaths ↔
        ∃ spec ∈ f.importSpecifiers ++ f.dynamicImportSpecifiers,
          classifySpec env.fsEx env.aliasRules P spec = Dep.localR x) ∧
      (∀ x, x ∈ e.localUnresolved ↔
        ∃ spec ∈ f.importSpecifiers ++ f.dynamicImportSpecifiers,
          classifySpec env.fsEx env.aliasRules P spec = Dep.localU x) ∧
      (∀ x, x ∈ e.externalPkgs ↔
        ∃ spec ∈ f.importSpecifiers ++ f.dynamicImportSpecifiers,
          classifySpec env.fsEx env.aliasRules P spec = Dep.externalR x) := by
  intro env prevIdx now P f e hfile hdeps
  have hnd := generateIndex_files_keysNodup env prevIdx now
  have hgraph : (generateIndex env prevIdx now).graph =
      buildGraph env.fsEx env.aliasRules (generateIndex env prevIdx now).files := by
    rw [generateIndex]
  rw [hgraph, graph_deps_lookup env.fsEx env.aliasRules _ P hnd] at hdeps
  obtain ⟨kv, hfind, hk1, hk2, _⟩ := objGet_eq_some _ _ _ hfile
  rw [hfind] at hdeps
  have he : e = depsFor env.fsEx env.aliasRules P f := by
    have h2 : depsFor env.fsEx env.aliasRules kv.1 kv.2 = e := by
      injection hdeps
    rw [← h2, hk1, hk2]
  subst he
  have hL : (depsFor env.fsEx env.aliasRules P f).localPaths =
      insort ((f.importSpecifiers ++ f.dynamicImportSpecifiers).filterMap
        (localSel env.fsEx env.aliasRules P)) := by
    rw [depsFor_fields]
  have hU : (depsFor env.fsEx env.aliasRules P f).localUnresolved =
      insort ((f.importSpecifiers ++ f.dynamicImportSpecifiers).filterMap
        (unresolvedSel env.fsEx env.aliasRules P)) := by
    rw [depsFor_fields]
  have hE : (depsFor env.fsEx env.aliasRules P f).externalPkgs =
      insort ((f.importSpecifiers ++ f.dynamicImportSpecifiers).filterMap
        (externalSel env.fsEx env.aliasRules P)) := by
    rw [depsFor_fields]
  refine ⟨⟨by rw [hL]; exact sortedB_insort _, by rw [hU]; exact sortedB_insort _,
    by rw [hE]; exact sortedB_insort _⟩, ?_, ?_, ?_⟩
  · intro x
    rw [hL, mem_insort, List.mem_filterMap]
    constructor
    · rintro ⟨spec, hs, hsel⟩
      refine ⟨spec, hs, ?_⟩
      rw [localSel] at hsel
      rcases hcl : classifySpec env.fsEx env.aliasRules P spec with p | s2 | pk <;>
        rw [hcl] at hsel
      · injection hsel with h2
        rw [h2]
      · exact absurd hsel (by simp)
      · exact absurd hsel (by simp)
    · rintro ⟨spec, hs, hcl⟩
      exact ⟨spec, hs, by rw [localSel, hcl]⟩
  · intro x
    rw [hU, mem_insort, List.mem_filterMap]
    constructor
    · rintro ⟨spec, hs, hsel⟩
      refine ⟨spec, hs, ?_⟩
      rw [unresolvedSel] at hsel
      rcases hcl : classifySpec env.fsEx env.aliasRules P spec with p | s2 | pk <;>
        rw [hcl] at hsel
      · exact absurd hsel (by simp)
      · injection hsel with h2
        rw [h2]
      · exact absurd hsel (by simp)
    · rintro ⟨spec, hs, hcl⟩
      exact ⟨spec, hs, by rw [unresolvedSel, hcl]⟩
  · intro x
    rw [hE, mem_insort, List.mem_filterMap]
    constructor
    · rintro ⟨spec, hs, hsel⟩
      refine ⟨spec, hs, ?_⟩
      rw [externalSel] at hsel
      rcases hcl : classifySpec env.fsEx env.aliasRules P spec with p | s2 | pk <;>
        rw [hcl] at hsel
      · exact absurd hsel (by simp)
      · exact absurd hsel (by simp)
      · injection hsel with h2
        rw [h2]
    · rintro ⟨spec, hs, hcl⟩
      exact ⟨spec, hs, by rw [externalSel, hcl]⟩

/-- An environment whose one tracked file imports `./a` both statically and
dynamically (a real JavaScript pattern: `import x from './a'` together with
`await import('./a')`). -/
def envDup : Env :=
  { parse := fun _ _ => ⟨["./a"], ["./a"], [], false⟩
    fsEx := fun p => p == "a.ts" || p == "b.ts"
    fileText := fun _ => "x"
    hash := fun _ => "h"
    tracked := ["b.ts"]
    aliasRules := []
    projectName := "dup" }

/-- C4 counterexample: the generated `deps["b.ts"].local` holds `a.ts`
twice — the per-file lists are sorted but not deduplicated, refuting the
claim's "deduplicated ... sets". -/
theorem c4_counterexample_duplicate_local :
    objGet (generateIndex envDup none "T").graph.deps "b.ts" =
        some ⟨["a.ts", "a.ts"], [], []⟩ ∧
    ¬ (["a.ts", "a.ts"] : List String).Nodup :=
  ⟨by decide, by decide⟩

/-- C4 witness: the amended statement applied to the end-to-end environment
(the page's local list is sorted). -/
theorem c4_amended_witness :
    sortedB ((objGet (generateIndex envE2E none "T1").graph.deps
      "pages/home.tsx").getD ⟨[], [], []⟩).localPaths = true := by
  have h := c4_amended_sorted_merged_lists envE2E none "T1" "pages/home.tsx"
    ((objGet (generateIndex envE2E none "T1").files "pages/home.tsx").getD
      ⟨"", "", 0, "", [], [], [], false, none⟩)
    ((objGet (generateIndex envE2E none "T1").graph.deps "pages/home.tsx").getD
      ⟨[], [], []⟩)
    (by decide) (by decide)
  exact h.1.1

/-! ## C5 — the cache-carry discipline -/

theorem processFile_some (env : Env) (pi : Index) (p : String) :
    processFile env (some pi) p =
      match objGet pi.files p with
      | some prev =>
        if prev.sha256 == env.hash (env.fileText p) &&
            (pi.schemaVersion == SCHEMA_VERSION) && prev.semantic.isSome
        then prev
        else freshRecord env p (env.fileText p) (env.hash (env.fileText p))
      | none => freshRecord env p (env.fileText p) (env.hash (env.fileText p)) := rfl

theorem describeOne_eq (idx : Index) (pd : DescFile) (p : String) (f : FileRecord) :
    describeOne idx pd p f =
      match objGet pd.files p with
      | some pr =>
        if pd.schemaVersion == DESC_SCHEMA_VERSION && truthyStr pr.sha256 &&
            !(f.sha256 == "") && pr.sha256 == some f.sha256 && pr.description.isSome
        then { pr with carriedFrom := some pd.generatedAt }
        else freshDesc idx p f
      | none => freshDesc idx p f := rfl

theorem processFile_carry (env : Env) (pi : Index) (p : String) (prev : FileRecord)
    (hprev : objGet pi.files p = some prev) :
    processFile env (some pi) p =
      if (prev.sha256 == env.hash (env.fileText p) &&
          (pi.schemaVersion == SCHEMA_VERSION) && prev.semantic.isSome) = true
      then prev
      else freshRecord env p (env.fileText p) (env.hash (env.fileText p)) := by
  rw [processFile_some, hprev]

theorem processFile_miss (env : Env) (pi : Index) (p : String)
    (hprev : objGet pi.files p = none) :
    processFile env (some pi) p =
      freshRecord env p (env.fileText p) (env.hash (env.fileText p)) := by
  rw [processFile_some, hprev]

theorem describeOne_carry (idx : Index) (pd : DescFile) (p : String) (f : FileRecord)
    (pr : DescRecord) (hprev : objGet pd.files p = some pr) :
    describeOne idx pd p f =
      if (pd.schemaVersion == DESC_SCHEMA_VERSION && truthyStr pr.sha256 &&
          !(f.sha256 == "") && pr.sha256 == some f.sha256 && pr.description.isSome) = true
      then { pr with carriedFrom := some pd.generatedAt }
      else freshDesc idx p f := by
  rw [describeOne_eq, hprev]

/-- C5: per-file cache reuse.  For the index generator, the record under key
`p` of a run against a prior snapshot is exactly the prior record when (a)
its stored hash equals the freshly computed one, (b) the prior snapshot's
schema version is the current one, and (c) its semantic facts are present —
and a freshly computed record otherwise.  For the description synthesizer,
the carried record is the prior record with only the carry provenance
(`carriedFrom`) added, under the analogous hash / schema-version /
description-present conditions. -/
theorem c5_cache_carry :
    (∀ (env : Env) (pi : Index) (now p : String), p ∈ sourceFilesOf env →
      objGet (generateIndex env (some pi) now).files p =
        some (match objGet pi.files p with
          | some prev =>
            if prev.sha256 = env.hash (env.fileText p) ∧
                pi.schemaVersion = SCHEMA_VERSION ∧ prev.semantic.isSome = true
            then prev
            else freshRecord env p (env.fileText p) (env.hash (env.fileText p))
          | none => freshRecord env p (env.fileText p) (env.hash (env.fileText p)))) ∧
    (∀ (idx : Index) (pd : DescFile) (now p : String) (f : FileRecord),
      (idx.files.map Prod.fst).Nodup → objGet idx.files p = some f →
      objGet (describeRun idx (some pd) now).files p =
        some (match objGet pd.files p with
          | some pr =>
            if pd.schemaVersion = DESC_SCHEMA_VERSION ∧ pr.sha256 = some f.sha256 ∧
                f.sha256 ≠ "" ∧ pr.description.isSome = true
            then { pr with carriedFrom := some pd.generatedAt }
            else freshDesc idx p f
          | none => freshDesc idx p f)) := by
  constructor
  · intro env pi now p hp
    have hget : objGet (generateIndex env (some pi) now).files p =
        some (processFile env (some pi) p) := by
      simp only [generateIndex]
      rw [objGet_foldl_keyfun, if_pos hp]
    rw [hget, processFile_some]
    cases hprev : objGet pi.files p with
    | none => rfl
    | some prev =>
      have hiff : (prev.sha256 == env.hash (env.fileText p) &&
            (pi.schemaVersion == SCHEMA_VERSION) && prev.semantic.isSome) = true ↔
          (prev.sha256 = env.hash (env.fileText p) ∧
            pi.schemaVersion = SCHEMA_VERSION ∧ prev.semantic.isSome = true) := by
        simp [Bool.and_eq_true, beq_iff_eq, and_assoc]
      exact congrArg some (if_congr hiff rfl rfl)
  · intro idx pd now p f hnd hfile
    obtain ⟨kv, hfind, hk1, hk2, _⟩ := objGet_eq_some _ _ _ hfile
    have hget : objGet (describeRun idx (some pd) now).files p =
        some (describeOne idx pd kv.1 kv.2) := by
      simp only [describeRun, Option.getD_some]
      rw [objGet_foldl_pairs_nodup (fun kv => describeOne idx pd kv.1 kv.2) idx.files []
        p hnd, hfind]
    rw [hget, hk1, hk2, describeOne_eq]
    cases hprev : objGet pd.files p with
    | none => rfl
    | some pr =>
      have hiff : (pd.schemaVersion == DESC_SCHEMA_VERSION && truthyStr pr.sha256 &&
            !(f.sha256 == "") && pr.sha256 == some f.sha256 &&
            pr.description.isSome) = true ↔
          (pd.schemaVersion = DESC_SCHEMA_VERSION ∧ pr.sha256 = some f.sha256 ∧
            f.sha256 ≠ "" ∧ pr.description.isSome = true) := by
        simp only [Bool.and_eq_true, beq_iff_eq]
        constructor
        · rintro ⟨⟨⟨⟨h1, _⟩, h3⟩, h4⟩, h5⟩
          refine ⟨h1, h4, ?_, h5⟩
          simpa using h3
        · rintro ⟨h1, h2, h3, h4⟩
          refine ⟨⟨⟨⟨h1, ?_⟩, by simpa using h3⟩, h2⟩, h4⟩
          rw [h2, truthyStr]
          simpa using h3
      exact congrArg some (if_congr hiff rfl rfl)

/-- C5 witness: under the end-to-end environment, the second run carries the
first run's record for `utils/fmt.ts` verbatim. -/
theorem c5_cache_carry_witness :
    objGet (generateIndex envE2E (some (generateIndex envE2E none "T1")) "T2").files
        "utils/fmt.ts" =
      objGet (generateIndex envE2E none "T1").files "utils/fmt.ts" := by
  have h := c5_cache_carry.1 envE2E (generateIndex envE2E none "T1") "T2" "utils/fmt.ts"
    (by decide)
  rw [h]
  decide

/-! ## C6 — run-to-run stability -/

theorem foldl_objInsert_congr {α : Type} (f g : String → α) :
    ∀ (l : List String) (o : JObj α), (∀ p ∈ l, f p = g p) →
      l.foldl (fun o p => objInsert o p (f p)) o =
        l.foldl (fun o p => objInsert o p (g p)) o
  | [], _, _ => rfl
  | p :: l, o, h => by
    rw [List.foldl_cons, List.foldl_cons, h p (List.mem_cons_self p l)]
    exact foldl_objInsert_congr f g l _ (fun q hq => h q (List.mem_cons_of_mem p hq))

theorem processFile_invariants (env : Env) (pi : Option Index) (p : String) :
    (processFile env pi p).sha256 = env.hash (env.fileText p) ∧
    (processFile env pi p).semantic.isSome = true := by
  cases pi with
  | none => exact ⟨rfl, rfl⟩
  | some pi =>
    cases hprev : objGet pi.files p with
    | none =>
      rw [processFile_miss env pi p hprev]
      exact ⟨rfl, rfl⟩
    | some prev =>
      rw [processFile_carry env pi p prev hprev]
      by_cases hb : (prev.sha256 == env.hash (env.fileText p) &&
          (pi.schemaVersion == SCHEMA_VERSION) && prev.semantic.isSome) = true
      · rw [if_pos hb]
        have h2 := hb
        simp only [Bool.and_eq_true, beq_iff_eq] at h2
        exact ⟨h2.1.1, h2.2⟩
      · rw [if_neg hb]
        exact ⟨rfl, rfl⟩

theorem Index_ext (a b : Index)
    (h1 : a.schemaVersion = b.schemaVersion) (h2 : a.generatedAt = b.generatedAt)
    (h3 : a.projectName = b.projectName) (h4 : a.aliasRules = b.aliasRules)
    (h5 : a.countTracked = b.countTracked) (h6 : a.countSource = b.countSource)
    (h7 : a.files = b.files) (h8 : a.graph = b.graph) : a = b := by
  cases a
  cases b
  simp_all

theorem DescFile_ext (a b : DescFile)
    (h1 : a.schemaVersion = b.schemaVersion) (h2 : a.generatedAt = b.generatedAt)
    (h3 : a.files = b.files) : a = b := by
  cases a
  cases b
  simp_all

theorem objGet_map_pairkey {α β : Type} (g : String × β → α) (l : List (String × β))
    (q : String) :
    objGet (l.map (fun kv => (kv.1, g kv))) q = (l.find? (fun kv => kv.1 == q)).map g := by
  rw [objGet, List.find?_map]
  have h : ((fun kv : String × α => kv.1 == q) ∘ fun kv => (kv.1, g kv)) =
      fun kv : String × β => kv.1 == q := rfl
  rw [h, Option.map_map]
  rfl

/-- The second-run file map equals the first-run file map (the reuse gate
fires for every source file). -/
theorem generateIndex_files_stable (env : Env) (prevIdx : Option Index) (t1 t2 : String) :
    (generateIndex env (some (generateIndex env prevIdx t1)) t2).files =
      (generateIndex env prevIdx t1).files := by
  show (sourceFilesOf env).foldl
      (fun o p => objInsert o p (processFile env (some (generateIndex env prevIdx t1)) p))
      [] = _
  have hcongr : ∀ p ∈ sourceFilesOf env,
      processFile env (some (generateIndex env prevIdx t1)) p =
        processFile env prevIdx p := by
    intro p hp
    have hget : objGet (generateIndex env prevIdx t1).files p =
        some (processFile env prevIdx p) := by
      simp only [generateIndex]
      rw [objGet_foldl_keyfun, if_pos hp]
    rw [processFile_carry env (generateIndex env prevIdx t1) p
      (processFile env prevIdx p) hget]
    have hinv := processFile_invariants env prevIdx p
    have hcond : ((processFile env prevIdx p).sha256 == env.hash (env.fileText p) &&
        ((generateIndex env prevIdx t1).schemaVersion == SCHEMA_VERSION) &&
        (processFile env prevIdx p).semantic.isSome) = true := by
      simp only [Bool.and_eq_true, beq_iff_eq]
      exact ⟨⟨hinv.1, rfl⟩, hinv.2⟩
    rw [if_pos hcond]
  rw [foldl_objInsert_congr _ _ (sourceFilesOf env) [] hcongr]
  rfl

/-- The first description run over an index with unique keys is the fresh
record map. -/
theorem describeRun_none_files (idx : Index) (t1 : String)
    (hnd : (idx.files.map Prod.fst).Nodup) :
    (describeRun idx none t1).files =
      idx.files.map (fun kv => (kv.1, freshDesc idx kv.1 kv.2)) := by
  show idx.files.foldl
      (fun acc kv => objInsert acc kv.1
        (describeOne idx ⟨DESC_SCHEMA_VERSION, none, []⟩ kv.1 kv.2)) [] = _
  rw [foldl_objInsert_append (fun kv =>
    describeOne idx ⟨DESC_SCHEMA_VERSION, none, []⟩ kv.1 kv.2) idx.files []
    (by simpa using hnd)]
  simp only [List.nil_append]
  apply List.map_congr_left
  intro kv _
  rfl

/-- C6 (amended): the index generator is idempotent — with no source change,
a second run reproduces the first run's snapshot with only `generatedAt`
replaced.  The description synthesizer is NOT byte-stable beyond its
timestamp: the second run carries every record but rewrites its
`carriedFrom` provenance to the prior run's generation time (and the digest
counters flip from updated to carried). -/
theorem c6_amended_idempotence :
    (∀ (env : Env) (prevIdx : Option Index) (t1 t2 : String),
      generateIndex env (some (generateIndex env prevIdx t1)) t2 =
        { generateIndex env prevIdx t1 with generatedAt := t2 }) ∧
    (∀ (idx : Index) (t1 t2 : String),
      (idx.files.map Prod.fst).Nodup →
      (∀ kv ∈ idx.files, kv.2.sha256 ≠ "") →
      describeRun idx (some (describeRun idx none t1)) t2 =
        { describeRun idx none t1 with
            generatedAt := some t2
            files := (describeRun idx none t1).files.map
              (fun kv => (kv.1, { kv.2 with carriedFrom := some (some t1) })) }) := by
  constructor
  · intro env prevIdx t1 t2
    have hfiles := generateIndex_files_stable env prevIdx t1 t2
    apply Index_ext
    · rfl
    · rfl
    · rfl
    · rfl
    · rfl
    · rfl
    · exact hfiles
    · show buildGraph env.fsEx env.aliasRules
        (generateIndex env (some (generateIndex env prevIdx t1)) t2).files = _
      rw [hfiles]
      rfl
  · intro idx t1 t2 hnd hsha
    have hd1 := describeRun_none_files idx t1 hnd
    apply DescFile_ext
    · rfl
    · rfl
    · show idx.files.foldl
        (fun acc kv => objInsert acc kv.1
          (describeOne idx (describeRun idx none t1) kv.1 kv.2)) [] = _
      rw [foldl_objInsert_append (fun kv =>
        describeOne idx (describeRun idx none t1) kv.1 kv.2) idx.files []
        (by simpa using hnd)]
      simp only [List.nil_append]
      rw [hd1, List.map_map]
      apply List.map_congr_left
      intro kv hkv
      show (kv.1, describeOne idx (describeRun idx none t1) kv.1 kv.2) = _
      have hget : objGet (describeRun idx none t1).files kv.1 =
          some (freshDesc idx kv.1 kv.2) := by
        rw [hd1, objGet_map_pairkey, find?_of_mem_keyNodup idx.files kv hnd hkv]
        rfl
      rw [describeOne_carry idx (describeRun idx none t1) kv.1 kv.2
        (freshDesc idx kv.1 kv.2) hget]
      have hcond : ((describeRun idx none t1).schemaVersion == DESC_SCHEMA_VERSION &&
          truthyStr (freshDesc idx kv.1 kv.2).sha256 && !(kv.2.sha256 == "") &&
          (freshDesc idx kv.1 kv.2).sha256 == some kv.2.sha256 &&
          (freshDesc idx kv.1 kv.2).description.isSome) = true := by
        have hne : (kv.2.sha256 == "") = false :=
          beq_eq_false_iff_ne.mpr (hsha kv hkv)
        have hsv : (describeRun idx none t1).schemaVersion = DESC_SCHEMA_VERSION := rfl
        simp [truthyStr, freshDesc, hne, hsv]
      rw [if_pos hcond]
      rfl

/-- C6 counterexample: under the end-to-end environment, the description
synthesizer's second run is NOT the first run's output with only the
generation timestamp replaced — the carried records gain
`carriedFrom = "D1"` where the first run's records have no carry
provenance. -/
theorem c6_counterexample_description_churn :
    describeRun (generateIndex envE2E none "T1")
        (some (describeRun (generateIndex envE2E none "T1") none "D1")) "D2" ≠
      { describeRun (generateIndex envE2E none "T1") none "D1" with
          generatedAt := some "D2" } ∧
    (objGet (describeRun (generateIndex envE2E none "T1")
        (some (describeRun (generateIndex envE2E none "T1") none "D1")) "D2").files
          "pages/home.tsx").map DescRecord.carriedFrom = some (some (some "D1")) ∧
    (objGet (describeRun (generateIndex envE2E none "T1") none "D1").files
        "pages/home.tsx").map DescRecord.carriedFrom = some none :=
  ⟨by decide, by decide, by decide⟩

/-- C6 witness: the amended description characterization applied to the
end-to-end environment. -/
theorem c6_amended_witness :
    describeRun (generateIndex envE2E none "T1")
        (some (describeRun (generateIndex envE2E none "T1") none "D1")) "D2" =
      { describeRun (generateIndex envE2E none "T1") none "D1" with
          generatedAt := some "D2"
          files := (describeRun (generateIndex envE2E none "T1") none "D1").files.map
            (fun kv => (kv.1, { kv.2 with carriedFrom := some (some "D1") })) } :=
  c6_amended_idempotence.2 (generateIndex envE2E none "T1") "D1" "D2"
    (by decide) (by decide)

/-! ## C8 — extraction caps -/

/-- The uncapped collection (the same loop without the `break`): its final
size is the number of distinct non-empty values passing `keep`. -/
def collectAll (keep : String → Bool) : List String → List String → List String
  | acc, [] => acc
  | acc, v :: vs =>
    if v == "" then collectAll keep acc vs
    else collectAll keep (if keep v && !(acc.contains v) then acc ++ [v] else acc) vs

theorem collectAll_length_ge (keep : String → Bool) :
    ∀ (vs acc : List String), acc.length ≤ (collectAll keep acc vs).length
  | [], _ => Nat.le_refl _
  | v :: vs, acc => by
    by_cases h0 : (v == "") = true
    · simp only [collectAll, h0, if_true]
      exact collectAll_length_ge keep vs acc
    · have h0f : (v == "") = false := by simpa using h0
      simp only [collectAll, h0f, Bool.false_eq_true, if_false]
      by_cases hk : (keep v && !(acc.contains v)) = true
      · rw [if_pos hk]
        calc acc.length ≤ (acc ++ [v]).length := by simp
          _ ≤ _ := collectAll_length_ge keep vs (acc ++ [v])
      · rw [if_neg hk]
        exact collectAll_length_ge keep vs acc

theorem addCapped_length (cap : Nat) (keep : String → Bool) :
    ∀ (vs acc : List String), acc.length < cap →
      (addCapped cap keep acc vs).length = min cap (collectAll keep acc vs).length
  | [], acc, h => by
    simp only [addCapped, collectAll]
    omega
  | v :: vs, acc, h => by
    by_cases h0 : (v == "") = true
    · simp only [addCapped, collectAll, h0, if_true]
      exact addCapped_length cap keep vs acc h
    · have h0f : (v == "") = false := by simpa using h0
      simp only [addCapped, collectAll, h0f, Bool.false_eq_true, if_false]
      by_cases hk : (keep v && !(acc.contains v)) = true
      · rw [if_pos hk]
        by_cases hcap : cap ≤ (acc ++ [v]).length
        · rw [if_pos hcap]
          have hge := collectAll_length_ge keep vs (acc ++ [v])
          simp only [List.length_append, List.length_singleton] at hcap hge ⊢
          omega
        · rw [if_neg hcap]
          have hlt : (acc ++ [v]).length < cap := Nat.lt_of_not_le hcap
          exact addCapped_length cap keep vs (acc ++ [v]) hlt
      · rw [if_neg hk]
        have hcap : ¬ cap ≤ acc.length := Nat.not_le_of_lt h
        rw [if_neg hcap]
        exact addCapped_length cap keep vs acc h

theorem length_insortInsert (x : String) :
    ∀ l : List String, (insortInsert x l).length = l.length + 1
  | [] => rfl
  | y :: t => by
    by_cases h : strLe x y = true
    · simp [insortInsert, h]
    · simp [insortInsert, h, length_insortInsert x t]

theorem length_insort : ∀ l : List String, (insort l).length = l.length
  | [] => rfl
  | x :: t => by
    rw [insort, length_insortInsert x (insort t), length_insort t]
    rfl

/-- C8: per-file literal extraction is capped — at most 25 endpoint
literals, 25 storage keys and 40 environment-variable identifiers are ever
recorded (the loops break once a cap is reached) — and whenever the text
yields at least 25 distinct endpoint literals (a file with 40 distinct
`/api/...` literals in particular), exactly 25 endpoints are recorded. -/
theorem c8_extraction_caps :
    (∀ (text filePath : String) (extDeps : List String),
      (extractSemanticFromText text filePath extDeps).apiEndpoints.length ≤ 25 ∧
      (extractSemanticFromText text filePath extDeps).storageKeys.length ≤ 25 ∧
      (extractSemanticFromText text filePath extDeps).envVars.length ≤ 40) ∧
    (∀ (text filePath : String) (extDeps : List String),
      25 ≤ (collectAll apiKeep [] (scanApi text)).length →
      (extractSemanticFromText text filePath extDeps).apiEndpoints.length = 25) := by
  have hapi : ∀ (text filePath : String) (extDeps : List String),
      (extractSemanticFromText text filePath extDeps).apiEndpoints =
        insort (addCapped 25 apiKeep [] (scanApi text)) := fun _ _ _ => rfl
  have hsto : ∀ (text filePath : String) (extDeps : List String),
      (extractSemanticFromText text filePath extDeps).storageKeys =
        insort (addCapped 25 (fun _ => true) [] (scanStorage text)) := fun _ _ _ => rfl
  have henv : ∀ (text filePath : String) (extDeps : List String),
      (extractSemanticFromText text filePath extDeps).envVars =
        insort (addCapped 40 (fun _ => true) [] (scanEnv text)) := fun _ _ _ => rfl
  constructor
  · intro text filePath extDeps
    refine ⟨?_, ?_, ?_⟩
    · rw [hapi, length_insort,
        addCapped_length 25 apiKeep (scanApi text) [] (by simp)]
      exact Nat.min_le_left _ _
    · rw [hsto, length_insort,
        addCapped_length 25 (fun _ => true) (scanStorage text) [] (by simp)]
      exact Nat.min_le_left _ _
    · rw [henv, length_insort,
        addCapped_length 40 (fun _ => true) (scanEnv text) [] (by simp)]
      exact Nat.min_le_left _ _
  · intro text filePath extDeps hdistinct
    rw [hapi, length_insort,
      addCapped_length 25 apiKeep (scanApi text) [] (by simp)]
    omega

/-- A text with 40 distinct double-quoted `/api/...` literals. -/
def witText : String :=
  (List.range 40).foldl (fun s i => s ++ "\"/api/k" ++ Nat.repr i ++ "\"") ""

set_option maxRecDepth 100000 in
/-- C8 witness: the 40-distinct-literal text yields exactly 25 recorded
endpoints. -/
theorem c8_extraction_caps_witness :
    25 ≤ (collectAll apiKeep [] (scanApi witText)).length ∧
    (extractSemanticFromText witText "a.ts" []).apiEndpoints.length = 25 :=
  ⟨by decide, c8_extraction_caps.2 witText "a.ts" [] (by decide)⟩

/-! ## C9 — alias configuration recovery -/

/-- C9: loading the alias configuration is a total function (the script
wraps the read and parse in `try { ... } catch { return [] }`), and every
missing or malformed shape yields the empty rule set: a missing or
unreadable file, an empty file, a file the parser rejects, and a parsed
configuration without a reachable `compilerOptions.paths` object. -/
theorem c9_config_recovery :
    (∀ parseCfg : String → Option Json, readTsconfigPaths none parseCfg = []) ∧
    (∀ (parseCfg : String → Option Json) (txt : String), parseCfg txt = none →
      readTsconfigPaths (some txt) parseCfg = []) ∧
    (∀ (parseCfg : String → Option Json) (txt : String) (cfg : Json),
      parseCfg txt = some cfg →
      (jLookup cfg "compilerOptions").bind (fun co => jLookup co "paths") = none →
      readTsconfigPaths (some txt) parseCfg = []) ∧
    (∀ parseCfg : String → Option Json, readTsconfigPaths (some "") parseCfg = []) := by
  refine ⟨fun _ => rfl, ?_, ?_, ?_⟩
  · intro parseCfg txt hparse
    by_cases h0 : (txt == "") = true
    · simp [readTsconfigPaths, h0]
    · have h0f : (txt == "") = false := by simpa using h0
      simp [readTsconfigPaths, h0f, hparse]
  · intro parseCfg txt cfg hparse hlook
    by_cases h0 : (txt == "") = true
    · simp [readTsconfigPaths, h0]
    · have h0f : (txt == "") = false := by simpa using h0
      simp [readTsconfigPaths, h0f, hparse, hlook]
  · intro parseCfg
    rfl

/-- C9 witness: a missing file and an unparsable file both yield the empty
rule set. -/
theorem c9_config_recovery_witness :
    readTsconfigPaths none (fun _ => none) = [] ∧
    readTsconfigPaths (some "not json") (fun _ => none) = [] :=
  ⟨c9_config_recovery.1 (fun _ => none),
   c9_config_recovery.2.1 (fun _ => none) "not json" rfl⟩

end MetaSync
